import Mathlib

/-!
EnginePdfMulti: the `.vbkm` manifest parser.

A shallow embedding of the manifest-parsing code of `src/EnginePdfMulti.cpp`
(`SplitVbkmIntoRecords`, `NormalizeNewlines`, `ParseLineFile`, `ParseVbkmRecord`,
`ParseVbkmFile`) and theorems about it.

Conventions of the embedding:

* a text view (`std::string_view`) is the list of its characters, a `List Char`, and
  may hold any character, NUL included;
* a `char*` result is the C string it points to: the characters before its
  terminating NUL, so a value copied into a `char*` ends before its first NUL;
* an address inside the buffer `s` (a `const char*`) is its offset from `s.data()`;
* a pointer result that may be `nullptr` is an `Option`;
* the string helpers of `utils/StrUtil` called by the parser live outside
  `EnginePdfMulti.cpp`; they are modelled below, each marked as such.

The file has three parts: the definitions (helpers, data model, parser, and the
specification-level notions used to state the theorems), the lemmas, and the claims.
-/

namespace EnginePdfMulti

/-! ## String helpers used by the parser -/

/-- Modelled from the spec: `str::ParseUntil(sv, delim)` (utils/StrUtil, outside
`EnginePdfMulti.cpp`). It returns the text of `sv` up to, but not including, the first
`delim`, and advances `sv` past that `delim` (to the end when there is none).
The pair is (returned line, advanced `sv`). -/
def str.ParseUntil (sv : List Char) (delim : Char) : List Char × List Char :=
  (sv.takeWhile (fun c => c != delim), (sv.dropWhile (fun c => c != delim)).drop 1)

/-- Modelled from the spec: `sv::StartsWith(s, prefix)` (utils/StrUtil, outside
`EnginePdfMulti.cpp`): `s` begins with the literal, case-sensitive characters of `prefix`. -/
def sv.StartsWith (s pre : List Char) : Bool := pre.isPrefixOf s

/-- Worker of `sv.Split`: `cur` is the part being accumulated, `max` the number of
parts still allowed (`0` = no limit). -/
def sv.Split.go (c : Char) : Nat → List Char → List Char → List (List Char)
  | _, cur, [] => [cur]
  | max, cur, x :: xs =>
    if x = c ∧ max ≠ 1 then cur :: sv.Split.go c (max - 1) [] xs
    else sv.Split.go c max (cur ++ [x]) xs

/-- Modelled from the spec: `sv::Split(s, c, max)` (utils/StrUtil, outside
`EnginePdfMulti.cpp`): splits `s` at occurrences of `c`, left to right, into at most `max` parts, so
that with `max = 2` the text is split on the first `c` only. -/
def sv.Split (s : List Char) (c : Char) (max : Nat) : List (List Char) :=
  sv.Split.go c max [] s

/-- Modelled from the spec: `str::IsWs` (utils/StrUtil, outside `EnginePdfMulti.cpp`):
the whitespace characters removed by trimming: space, tab, line feed, vertical tab,
form feed and carriage return. -/
def str.IsWs (c : Char) : Bool :=
  c == ' ' || c == '\t' || c == '\n' || c == '\x0b' || c == '\x0c' || c == '\r'

/-- Modelled from the spec: `sv::TrimSpace(s)` (utils/StrUtil, outside
`EnginePdfMulti.cpp`): `s` with the whitespace at its start and at its end removed. -/
def sv.TrimSpace (s : List Char) : List Char :=
  (s.dropWhile str.IsWs).rdropWhile str.IsWs

/-- Modelled from the spec: `str::Str::Replace(toReplace, replaceWith)` (utils/StrUtil,
outside `EnginePdfMulti.cpp`): every occurrence of `toReplace`, found left to right
without overlap, is replaced by `replaceWith`. -/
def str.Replace (s toReplace replaceWith : List Char) : List Char :=
  match s with
  | [] => []
  | c :: cs =>
    if h : toReplace ≠ [] ∧ toReplace.isPrefixOf (c :: cs) = true then
      replaceWith ++ str.Replace ((c :: cs).drop toReplace.length) toReplace replaceWith
    else c :: str.Replace cs toReplace replaceWith
termination_by s.length
decreasing_by
  · have hpos : 0 < toReplace.length := List.length_pos.mpr h.1
    simp only [List.length_drop, List.length_cons]
    omega
  · simp

/-- Modelled from the spec: `str::Dup(sv)` (utils/StrUtil, outside
`EnginePdfMulti.cpp`): a copy of the characters of `sv` in a new NUL-terminated buffer,
returned as a `char*`. Read as the C string it is, the result holds the characters of
`sv` before its first NUL character. -/
def str.Dup (s : List Char) : List Char := s.takeWhile (fun c => c != '\x00')

/-! ## Data model -/

/-- Source `struct VbkmFile` (lines 177-180): one constituent file of the manifest. The
member `char* path` is the C string it points to, the characters before the terminating
NUL; `engine` is the `EngineBase*` member, `none` for `nullptr`. -/
structure VbkmFile where
  path : List Char
  engine : Option Unit := none
deriving DecidableEq, Repr

/-- Source `struct ParsedVbkm`: the ordered list of constituent files. -/
structure ParsedVbkm where
  files : List VbkmFile
deriving DecidableEq, Repr

/-! ## The parser -/

/-- The `while (!tmp.empty())` loop of `SplitVbkmIntoRecords` (lines 197-202): `tmp` is
the unread rest of `s`, `addrs` the addresses collected so far. `line.data()` is the
address at which `tmp` started before the call of `ParseUntil`, that is the offset
`s.size() - tmp.size()`. -/
def findFileLines (s : List Char) (tmp : List Char) (addrs : List Nat) : List Nat :=
  if h : tmp = [] then addrs
  else
    let line := (str.ParseUntil tmp '\n').1
    let rest := (str.ParseUntil tmp '\n').2
    if sv.StartsWith line "file:".toList then
      findFileLines s rest (addrs ++ [s.length - tmp.length])
    else findFileLines s rest addrs
termination_by tmp.length
decreasing_by
  all_goals
    cases tmp with
    | nil => exact absurd rfl h
    | cons c cs =>
      have h1 := (List.dropWhile_sublist (fun x => x != '\n') (l := cs)).length_le
      by_cases hc : (c != '\n') = true
      · simp only [str.ParseUntil, List.dropWhile_cons, hc, if_true, List.length_drop,
          List.length_cons]
        omega
      · simp only [str.ParseUntil, List.dropWhile_cons, hc, List.length_drop, List.length_cons]
        simp

/-- Source `SplitVbkmIntoRecords` (lines 191-217): the addresses of the lines that start
with "file:" are collected, the end of `s` is appended, and the records are the views
between consecutive addresses. -/
def SplitVbkmIntoRecords (s : List Char) : List (List Char) :=
  let addrs := findFileLines s s []
  let n := addrs.length
  if n = 0 then []
  else
    let addrs := addrs ++ [s.length]
    (List.range n).map fun i =>
      let start := addrs.getD i 0
      let end_ := addrs.getD (i + 1) 0
      let size := end_ - start
      (s.drop start).take size

/-- Source `NormalizeNewlines` (lines 219-224): two replacement passes over a copy. -/
def NormalizeNewlines (s : List Char) : List Char :=
  let tmp := s
  let tmp := str.Replace tmp "\r\n".toList "\n".toList
  let tmp := str.Replace tmp "\r".toList "\n".toList
  tmp

/-- Source `ParseLineFile` (lines 226-232); the empty view is the empty list. -/
def ParseLineFile (s : List Char) : List Char :=
  let parts := sv.Split s ':' 2
  if parts.length ≠ 2 then []
  else parts.getD 1 []

/-- Source `ParseVbkmRecord` (lines 235-246): parses a record starting with a "file:" line. -/
def ParseVbkmRecord (s : List Char) : Option VbkmFile :=
  let line := (str.ParseUntil s '\n').1
  let fileName := ParseLineFile line
  let fileName := sv.TrimSpace fileName
  if fileName.isEmpty then none
  else some { path := str.Dup fileName, engine := none }

/-- The `for` loop of `ParseVbkmFile` (lines 256-263): `files` is `res->files` so far. -/
def parseRecords : List (List Char) → List VbkmFile → Option ParsedVbkm
  | [], files => some { files := files }
  | r :: rs, files =>
    match ParseVbkmRecord r with
    | none => none
    | some file => parseRecords rs (files ++ [file])

/-- Source `ParseVbkmFile` (lines 248-266): `none` is the `nullptr` result. -/
def ParseVbkmFile (d : List Char) : Option ParsedVbkm :=
  let s := NormalizeNewlines d
  let records := SplitVbkmIntoRecords s
  let n := records.length
  if n = 0 then none
  else parseRecords records []

/-! ## Specification-level notions -/

/-- The lines of a text: the pieces separated by '\n'. -/
def lines (s : List Char) : List (List Char) := s.splitOn '\n'

/-- Joining lines with '\n' between them; the inverse of `lines`. -/
def unlines (L : List (List Char)) : List Char := ['\n'].intercalate L

/-- A line is a boundary line when it begins with the literal prefix "file:". -/
def isFileLine (l : List Char) : Bool := decide ("file:".toList <+: l)

/-- The boundary lines of a text, in order. -/
def fileLines (s : List Char) : List (List Char) := (lines s).filter isFileLine

/-- The texts that start at the boundary lines of `unlines L`, in order: for each
boundary line, the rest of the text from that line on. -/
def fileSuffixes : List (List Char) → List (List Char)
  | [] => []
  | l :: ls => if isFileLine l then unlines (l :: ls) :: fileSuffixes ls else fileSuffixes ls

/-- Cutting a chain of nested suffixes into the pieces between consecutive starts. -/
def cutAt : List (List Char) → List (List Char)
  | [] => []
  | [t] => [t]
  | t :: u :: ts => t.take (t.length - u.length) :: cutAt (u :: ts)

/-- The records of a text given by its lines: every boundary line opens a record, which
holds that line and the lines after it up to the next boundary line; a record that is
followed by another one ends with the line break before that boundary line. -/
def recordsOfLines : List (List Char) → List (List Char)
  | [] => []
  | l :: ls =>
    if isFileLine l then
      (unlines (l :: ls.takeWhile (fun m => !isFileLine m))
        ++ (if ls.all (fun m => !isFileLine m) then [] else ['\n'])) :: recordsOfLines ls
    else recordsOfLines ls

/-- The suffix of `s` that starts at its first boundary line: the lines before the first
line beginning with "file:" are dropped (the empty text when there is no such line). -/
def fromFirstFileLine (s : List Char) : List Char :=
  unlines ((lines s).dropWhile (fun l => !isFileLine l))

/-- The text `w` is `v` with its surrounding whitespace trimmed: `v` is `w` between two runs of
whitespace, and `w` neither starts nor ends with a whitespace character. -/
def IsTrimOf (v w : List Char) : Prop :=
  ∃ a b : List Char, v = a ++ w ++ b ∧ (∀ c ∈ a, str.IsWs c = true) ∧ (∀ c ∈ b, str.IsWs c = true) ∧
    (∀ c, w.head? = some c → str.IsWs c = false) ∧ (∀ c, w.getLast? = some c → str.IsWs c = false)

/-- The value of a "key: value" line: the text after its first ':'. -/
def valueOf (l : List Char) : List Char := (l.dropWhile (fun c => c != ':')).drop 1

/-- The path declared by a boundary line: its value with surrounding whitespace trimmed. -/
def pathOfLine (l : List Char) : List Char := sv.TrimSpace (valueOf l)

/-- Newline normalisation as the specification words it, in one pass from left to
right: a "\r\n" pair becomes a single "\n", any other '\r' becomes "\n", every other
character is kept. -/
def normalizeSpec : List Char → List Char
  | [] => []
  | c :: cs =>
    if c = '\r' then
      match cs with
      | [] => ['\n']
      | d :: ds => if d = '\n' then '\n' :: normalizeSpec ds else '\n' :: normalizeSpec (d :: ds)
    else c :: normalizeSpec cs

/-- The manifest parser in closed form, along the grammar of the specification (§4.1):
normalise the line endings, take the lines beginning with "file:" in order, and store
each one's trimmed value as a path (a C string, so cut before its first NUL); fail when
there is no such line or when one of the trimmed values is empty. -/
def parseSpec (d : List Char) : Option ParsedVbkm :=
  let FL := fileLines (normalizeSpec d)
  if FL ≠ [] ∧ ∀ l ∈ FL, pathOfLine l ≠ [] then
    some { files := FL.map (fun l => { path := str.Dup (pathOfLine l), engine := none }) }
  else none

/-- The text `t` with each "\n" rewritten as "\r\n". -/
def toCRLF (t : List Char) : List Char :=
  (t.map (fun c => if c = '\n' then ['\r', '\n'] else [c])).flatten

/-- The text `t` with each "\n" rewritten as a lone "\r". -/
def toCR (t : List Char) : List Char :=
  t.map (fun c => if c = '\n' then '\r' else c)

/-- The text made of the complete lines `P`, each one ended by '\n'. -/
def joinLines (P : List (List Char)) : List Char :=
  (P.map (fun l => l ++ ['\n'])).flatten

/-! ## The engine object and the entry points of the file -/

/-- Modelled from the spec: `str::IsEmpty(s)` (utils/StrUtil, outside
`EnginePdfMulti.cpp`): the name is missing or has no character. A file name is a
character list here, so the test is for the empty list. -/
def str.IsEmpty (s : List Char) : Bool := s.isEmpty

/-- The code a character is compared by when case is ignored: an upper-case letter
'A'..'Z' counts as its lower-case letter, every other character as itself. -/
def str.lowerCode (c : Char) : Nat :=
  if 'A'.toNat ≤ c.toNat ∧ c.toNat ≤ 'Z'.toNat then c.toNat + 32 else c.toNat

/-- Modelled from the spec: `str::EndsWithI(txt, end)` (utils/StrUtil, outside
`EnginePdfMulti.cpp`): the last characters of `txt` are those of `suffix`, compared
case-insensitively; `false` when `txt` is shorter than `suffix`. -/
def str.EndsWithI (txt suffix : List Char) : Bool :=
  if suffix.length > txt.length then false
  else (txt.drop (txt.length - suffix.length)).map str.lowerCode == suffix.map str.lowerCode

/-- Source `Kind kindEnginePdfMulti` (line 31). -/
def kindEnginePdfMulti : String := "enginePdfMulti"

/-- Source `class EnginePdfMultiImpl` (lines 33-81): the data members the file sets or
reads. The members `kind`, `defaultFileExt` and `fileDPI` come from `EngineBase`;
`fileDPI` holds the constant `72.0f`, kept as the number 72; `tocTree` is `none` for
`nullptr`. -/
structure EnginePdfMultiImpl where
  kind : String
  defaultFileExt : List Char
  fileDPI : Nat
  pageCount : Int
  tocTree : Option Unit
deriving DecidableEq, Repr

/-- Source constructor `EnginePdfMultiImpl::EnginePdfMultiImpl()` (lines 83-87) with the
member initialisers `pageCount = -1` (line 78) and `tocTree = nullptr` (line 80). -/
def EnginePdfMultiImpl.new : EnginePdfMultiImpl where
  kind := kindEnginePdfMulti
  defaultFileExt := ".vbkm".toList
  fileDPI := 72
  pageCount := -1
  tocTree := none

/-- Source `EnginePdfMultiImpl::Clone` (lines 91-93): `none` is the `nullptr` result. -/
def EnginePdfMultiImpl.Clone (_self : EnginePdfMultiImpl) : Option EnginePdfMultiImpl := none

/-- Source `EnginePdfMultiImpl::PageCount` (lines 95-97). -/
def EnginePdfMultiImpl.PageCount (self : EnginePdfMultiImpl) : Int := self.pageCount

/-- Source `EnginePdfMultiImpl::SaveFileAs` (lines 123-125). -/
def EnginePdfMultiImpl.SaveFileAs (_self : EnginePdfMultiImpl) (_copyFileName : List Char)
    (_includeUserAnnots : Bool) : Bool := false

/-- Source `EnginePdfMultiImpl::SaveFileAsPdf` (lines 127-129). -/
def EnginePdfMultiImpl.SaveFileAsPdf (_self : EnginePdfMultiImpl) (_pdfFileName : List Char)
    (_includeUserAnnots : Bool) : Bool := false

/-- Source `EnginePdfMultiImpl::SupportsAnnotation` (lines 143-145). -/
def EnginePdfMultiImpl.SupportsAnnotation (_self : EnginePdfMultiImpl) (_forSaving : Bool) :
    Bool := false

/-- Source `EnginePdfMultiImpl::Load` (lines 268-276). The parameter `ReadFile` stands
for `file::ReadFile` (utils/FileUtil, outside `EnginePdfMulti.cpp`): the content of the
named file, the empty view when there is none to read. The result pairs the returned
`bool` with the engine object after the call; `_pwdUI` is the unused `PasswordUI*`. -/
def EnginePdfMultiImpl.Load (ReadFile : List Char → List Char) (self : EnginePdfMultiImpl)
    (fileName : List Char) (_pwdUI : Option Unit) : Bool × EnginePdfMultiImpl :=
  let sv := ReadFile fileName
  if sv.isEmpty then (false, self)
  else
    -- `auto res = ParseVbkmFile(sv); delete res;`
    let _res := ParseVbkmFile sv
    (false, self)

/-- Source `EnginePdfMultiImpl::CreateFromFile` (lines 278-288): `none` is the `nullptr`
result, `some engine` the engine object handed to the caller. -/
def EnginePdfMultiImpl.CreateFromFile (ReadFile : List Char → List Char)
    (fileName : List Char) (pwdUI : Option Unit) : Option EnginePdfMultiImpl :=
  if str.IsEmpty fileName then none
  else
    let engine := EnginePdfMultiImpl.new
    let loaded := engine.Load ReadFile fileName pwdUI
    if !loaded.1 then none
    else some loaded.2

/-- Source `IsEnginePdfMultiSupportedFile` (lines 290-296). -/
def IsEnginePdfMultiSupportedFile (fileName : List Char) (sniff : Bool) : Bool :=
  if sniff then false
  else str.EndsWithI fileName ".vbkm".toList

/-- Source `CreateEnginePdfMultiFromFile` (lines 298-300). -/
def CreateEnginePdfMultiFromFile (ReadFile : List Char → List Char)
    (fileName : List Char) (pwdUI : Option Unit) : Option EnginePdfMultiImpl :=
  EnginePdfMultiImpl.CreateFromFile ReadFile fileName pwdUI

/-- The file name ends with the extension ".vbkm", each of its letters in either case. -/
def HasVbkmExtension (fileName : List Char) : Prop :=
  ∃ (pre : List Char) (v b k m : Char), fileName = pre ++ ['.', v, b, k, m] ∧
    (v = 'v' ∨ v = 'V') ∧ (b = 'b' ∨ b = 'B') ∧ (k = 'k' ∨ k = 'K') ∧ (m = 'm' ∨ m = 'M')

/-- The total page count of the specification's page index (§4.2): the sum of the page
counts of the constituents, each at least 0. -/
def totalPageCount (counts : List Nat) : Int := (counts.sum : Nat)

/-! ## Lemmas: lines, the record loop and the slicing loop -/

theorem unlines_lines (s : List Char) : unlines (lines s) = s :=
  List.intercalate_splitOn s '\n'

theorem lines_ne_nil (s : List Char) : lines s ≠ [] :=
  List.splitOnP_ne_nil _ _

theorem lines_cons (c : Char) (s : List Char) :
    lines (c :: s) = if c = '\n' then [] :: lines s else (lines s).modifyHead (List.cons c) := by
  unfold lines List.splitOn
  rw [List.splitOnP_cons]
  by_cases h : c = '\n' <;> simp [h]

theorem not_mem_of_mem_lines (s : List Char) : ∀ l ∈ lines s, '\n' ∉ l := by
  induction s with
  | nil => intro l hl; simp [lines, List.splitOn_nil] at hl; simp [hl]
  | cons c s ih =>
    intro l hl
    rw [lines_cons] at hl
    by_cases h : c = '\n'
    · simp only [h, if_true, List.mem_cons] at hl
      rcases hl with rfl | hl
      · simp
      · exact ih l hl
    · simp only [h, if_false] at hl
      cases hs : lines s with
      | nil => exact absurd hs (lines_ne_nil s)
      | cons a as =>
        rw [hs] at hl ih
        simp only [List.modifyHead_cons, List.mem_cons] at hl
        rcases hl with rfl | hl
        · have := ih a (List.mem_cons_self _ _)
          simp only [List.mem_cons, not_or]
          exact ⟨fun e => h e.symm, this⟩
        · exact ih l (List.mem_cons_of_mem _ hl)

theorem unlines_singleton (l : List Char) : unlines [l] = l := by
  simp [unlines, List.intercalate]

theorem unlines_cons_cons (l m : List Char) (ls : List (List Char)) :
    unlines (l :: m :: ls) = l ++ '\n' :: unlines (m :: ls) := by
  simp [unlines, List.intercalate]

theorem lines_unlines (L : List (List Char)) (hL : L ≠ []) (h : ∀ l ∈ L, '\n' ∉ l) :
    lines (unlines L) = L :=
  List.splitOn_intercalate L '\n' h hL

theorem isFileLine_iff (l : List Char) : isFileLine l = true ↔ "file:".toList <+: l := by
  simp [isFileLine]

theorem StartsWith_file (l : List Char) : sv.StartsWith l "file:".toList = isFileLine l := by
  rw [Bool.eq_iff_iff]
  simp only [sv.StartsWith, isFileLine, List.isPrefixOf_iff_prefix, decide_eq_true_eq]

theorem str.ParseUntil_of_not_mem (l : List Char) (d : Char) (h : d ∉ l) :
    str.ParseUntil l d = (l, []) := by
  have h1 : ∀ x ∈ l, (x != d) = true := by
    intro x hx
    simp only [bne_iff_ne, ne_eq]
    rintro rfl
    exact h hx
  have h2 : l.takeWhile (fun c => c != d) = l := List.takeWhile_eq_self_iff.mpr h1
  have h3 : l.dropWhile (fun c => c != d) = [] := List.dropWhile_eq_nil_iff.mpr h1
  simp [str.ParseUntil, h2, h3]

theorem str.ParseUntil_append_cons (l r : List Char) (d : Char) (h : d ∉ l) :
    str.ParseUntil (l ++ d :: r) d = (l, r) := by
  induction l with
  | nil => simp [str.ParseUntil]
  | cons c l ih =>
    have hc : c ≠ d := fun e => h (by simp [e])
    have hl : d ∉ l := fun e => h (List.mem_cons_of_mem _ e)
    have := ih hl
    simp only [str.ParseUntil, Prod.mk.injEq] at this
    simp [str.ParseUntil, hc, this.1, this.2]

theorem findFileLines_nil (s : List Char) (addrs : List Nat) :
    findFileLines s [] addrs = addrs := by
  rw [findFileLines]; simp

theorem findFileLines_step (s tmp : List Char) (addrs : List Nat) (h : tmp ≠ []) :
    findFileLines s tmp addrs =
      if isFileLine (str.ParseUntil tmp '\n').1 then
        findFileLines s (str.ParseUntil tmp '\n').2 (addrs ++ [s.length - tmp.length])
      else findFileLines s (str.ParseUntil tmp '\n').2 addrs := by
  rw [findFileLines]
  simp only [h, dite_false, StartsWith_file]

theorem fileSuffixes_cons (l : List Char) (ls : List (List Char)) :
    fileSuffixes (l :: ls)
      = if isFileLine l then unlines (l :: ls) :: fileSuffixes ls else fileSuffixes ls := rfl

theorem isFileLine_nil : isFileLine [] = false := by decide

theorem findFileLines_unlines (s : List Char) (L : List (List Char))
    (hL : ∀ l ∈ L, '\n' ∉ l) (addrs : List Nat) :
    findFileLines s (unlines L) addrs
      = addrs ++ (fileSuffixes L).map (fun t => s.length - t.length) := by
  induction L generalizing addrs with
  | nil => simp [unlines, List.intercalate, findFileLines_nil, fileSuffixes]
  | cons l ls ih =>
    have hl : '\n' ∉ l := hL l (List.mem_cons_self _ _)
    cases ls with
    | nil =>
      rw [unlines_singleton]
      by_cases hnil : l = []
      · subst hnil
        simp [findFileLines_nil, fileSuffixes, isFileLine_nil]
      · rw [findFileLines_step s l addrs hnil, str.ParseUntil_of_not_mem l '\n' hl]
        simp only [findFileLines_nil, fileSuffixes, unlines_singleton]
        by_cases hf : isFileLine l = true
        · simp [hf]
        · simp [hf]
    | cons m ms =>
      have hne : unlines (l :: m :: ms) ≠ [] := by
        rw [unlines_cons_cons]; simp
      rw [findFileLines_step s _ addrs hne]
      rw [show str.ParseUntil (unlines (l :: m :: ms)) '\n' = (l, unlines (m :: ms)) from by
        rw [unlines_cons_cons]; exact str.ParseUntil_append_cons l _ '\n' hl]
      have ih' := fun a => ih (fun x hx => hL x (List.mem_cons_of_mem _ hx)) a
      rw [fileSuffixes_cons l]
      by_cases hf : isFileLine l = true
      · simp only [hf, if_true, ih', List.map_cons, List.append_assoc, List.singleton_append]
      · simp only [hf, ih']
        simp

theorem range_map_getD (g : Nat → Nat → List Char) (n : Nat) (l : List Nat)
    (hl : l.length = n + 1) :
    (List.range n).map (fun i => g (l.getD i 0) (l.getD (i + 1) 0)) = List.zipWith g l l.tail := by
  induction n generalizing l with
  | zero =>
    match l, hl with
    | [a], _ => simp
  | succ n ih =>
    match l, hl with
    | a :: b :: l', hl' =>
      have h1 : (b :: l').length = n + 1 := by simpa using hl'
      have := ih (b :: l') h1
      rw [List.range_succ_eq_map]
      simp only [List.map_cons, List.map_map, List.tail_cons, List.zipWith_cons_cons]
      simp only [List.tail_cons] at this
      rw [← this]
      simp [Function.comp_def]

theorem slice_of_suffix (s t : List Char) (e : Nat) (ht : t <:+ s) :
    (s.drop (s.length - t.length)).take (e - (s.length - t.length))
      = t.take (e - (s.length - t.length)) := by
  rw [← List.suffix_iff_eq_drop.mp ht]

theorem zipWith_slices (s : List Char) (T : List (List Char))
    (hs : ∀ t ∈ T, t <:+ s) (hp : T.Pairwise (fun t u => u <:+ t)) :
    List.zipWith (fun a b => (s.drop a).take (b - a))
        (T.map (fun t => s.length - t.length) ++ [s.length])
        (T.map (fun t => s.length - t.length) ++ [s.length]).tail
      = cutAt T := by
  induction T with
  | nil => simp [cutAt]
  | cons t T ih =>
    have ht : t <:+ s := hs t (List.mem_cons_self _ _)
    have htl : t.length ≤ s.length := ht.length_le
    have ih' := ih (fun u hu => hs u (List.mem_cons_of_mem _ hu)) (List.Pairwise.of_cons hp)
    cases T with
    | nil =>
      simp only [List.map_cons, List.map_nil, List.nil_append, List.cons_append, List.tail_cons,
        List.zipWith_cons_cons, List.zipWith_nil_right, cutAt]
      rw [slice_of_suffix s t _ ht]
      have : s.length - (s.length - t.length) = t.length := by omega
      rw [this, List.take_length]
    | cons u T =>
      have hu : u <:+ t := (List.pairwise_cons.mp hp).1 u (List.mem_cons_self _ _)
      have hul : u.length ≤ t.length := hu.length_le
      simp only [List.map_cons, List.cons_append, List.tail_cons, List.zipWith_cons_cons, cutAt]
      simp only [List.map_cons, List.cons_append, List.tail_cons] at ih'
      rw [ih', slice_of_suffix s t _ ht]
      have : s.length - u.length - (s.length - t.length) = t.length - u.length := by omega
      rw [this]

theorem unlines_suffix_cons (l : List Char) (ls : List (List Char)) :
    unlines ls <:+ unlines (l :: ls) := by
  cases ls with
  | nil => simp [unlines, List.intercalate]
  | cons m ms =>
    rw [unlines_cons_cons]
    exact ⟨l ++ ['\n'], by simp⟩

theorem fileSuffixes_suffix (L : List (List Char)) : ∀ t ∈ fileSuffixes L, t <:+ unlines L := by
  induction L with
  | nil => simp [fileSuffixes]
  | cons l ls ih =>
    intro t ht
    rw [fileSuffixes_cons] at ht
    by_cases hf : isFileLine l = true
    · simp only [hf, if_true, List.mem_cons] at ht
      rcases ht with rfl | ht
      · exact List.suffix_refl _
      · exact (ih t ht).trans (unlines_suffix_cons l ls)
    · simp only [hf] at ht
      exact (ih t ht).trans (unlines_suffix_cons l ls)

theorem fileSuffixes_pairwise (L : List (List Char)) :
    (fileSuffixes L).Pairwise (fun t u => u <:+ t) := by
  induction L with
  | nil => simp [fileSuffixes]
  | cons l ls ih =>
    rw [fileSuffixes_cons]
    by_cases hf : isFileLine l = true
    · simp only [hf, if_true, List.pairwise_cons]
      exact ⟨fun u hu => (fileSuffixes_suffix ls u hu).trans (unlines_suffix_cons l ls), ih⟩
    · simpa only [hf] using ih

/-- The records are the pieces between consecutive boundary-line starts. -/
theorem SplitVbkmIntoRecords_eq_cutAt (s : List Char) :
    SplitVbkmIntoRecords s = cutAt (fileSuffixes (lines s)) := by
  have hloop : findFileLines s s []
      = (fileSuffixes (lines s)).map (fun t => s.length - t.length) := by
    have := findFileLines_unlines s (lines s) (not_mem_of_mem_lines s) []
    rw [unlines_lines] at this
    simpa using this
  unfold SplitVbkmIntoRecords
  simp only [hloop, List.length_map]
  by_cases hn : (fileSuffixes (lines s)).length = 0
  · have : fileSuffixes (lines s) = [] := List.length_eq_zero.mp hn
    simp [this, cutAt]
  · simp only [hn, if_false]
    rw [range_map_getD (fun a b => (s.drop a).take (b - a)) _ _ (by simp)]
    apply zipWith_slices
    · intro t ht
      have := fileSuffixes_suffix (lines s) t ht
      rwa [unlines_lines] at this
    · exact fileSuffixes_pairwise _

theorem recordsOfLines_cons (l : List Char) (ls : List (List Char)) :
    recordsOfLines (l :: ls) =
      if isFileLine l then
        (unlines (l :: ls.takeWhile (fun m => !isFileLine m))
          ++ (if ls.all (fun m => !isFileLine m) then [] else ['\n'])) :: recordsOfLines ls
      else recordsOfLines ls := rfl

theorem unlines_append (A B : List (List Char)) (hA : A ≠ []) (hB : B ≠ []) :
    unlines (A ++ B) = unlines A ++ '\n' :: unlines B := by
  induction A with
  | nil => exact absurd rfl hA
  | cons a A ih =>
    cases A with
    | nil =>
      cases B with
      | nil => exact absurd rfl hB
      | cons b B => simp [unlines_cons_cons, unlines_singleton]
    | cons a' A' =>
      have := ih (by simp)
      simp only [List.cons_append] at this ⊢
      rw [unlines_cons_cons, this, unlines_cons_cons]
      simp

theorem fileSuffixes_append_of_not_file (A B : List (List Char))
    (hA : ∀ a ∈ A, isFileLine a = false) : fileSuffixes (A ++ B) = fileSuffixes B := by
  induction A with
  | nil => rfl
  | cons a A ih =>
    have ha : isFileLine a = false := hA a (List.mem_cons_self _ _)
    rw [List.cons_append, fileSuffixes_cons, ha]
    simpa using ih (fun x hx => hA x (List.mem_cons_of_mem _ hx))

theorem takeWhile_not_file (ls : List (List Char)) :
    ∀ a ∈ ls.takeWhile (fun m => !isFileLine m), isFileLine a = false := by
  intro a ha
  simpa using List.mem_takeWhile_imp ha

theorem cutAt_fileSuffixes (L : List (List Char)) :
    cutAt (fileSuffixes L) = recordsOfLines L := by
  induction L with
  | nil => rfl
  | cons l ls ih =>
    rw [fileSuffixes_cons, recordsOfLines_cons]
    by_cases hf : isFileLine l = true
    · simp only [hf, if_true]
      have hsplit : ls = ls.takeWhile (fun m => !isFileLine m)
          ++ ls.dropWhile (fun m => !isFileLine m) := (List.takeWhile_append_dropWhile _ _).symm
      have hfs : fileSuffixes ls = fileSuffixes (ls.dropWhile (fun m => !isFileLine m)) := by
        conv_lhs => rw [hsplit]
        exact fileSuffixes_append_of_not_file _ _ (takeWhile_not_file ls)
      cases hd : ls.dropWhile (fun m => !isFileLine m) with
      | nil =>
        have hall : ls.all (fun m => !isFileLine m) = true := by
          rw [List.all_eq_true]
          exact List.dropWhile_eq_nil_iff.mp hd
        have htw : ls.takeWhile (fun m => !isFileLine m) = ls := by
          rw [hd, List.append_nil] at hsplit; exact hsplit.symm
        rw [hd] at hfs
        rw [← ih, hfs]
        simp [fileSuffixes, cutAt, hall, htw]
      | cons b B =>
        have hb : isFileLine b = true := by
          have := List.head_dropWhile_not (fun m => !isFileLine m) ls (by rw [hd]; simp)
          simpa [hd] using this
        have hall : ls.all (fun m => !isFileLine m) = false := by
          rw [Bool.eq_false_iff]
          intro h
          rw [List.all_eq_true] at h
          have := List.dropWhile_eq_nil_iff.mpr h
          rw [hd] at this
          exact List.cons_ne_nil _ _ this
        rw [hd, fileSuffixes_cons, hb] at hfs
        simp only [if_true] at hfs
        rw [← ih, hfs, cutAt, hall]
        have ht : unlines (l :: ls)
            = unlines (l :: ls.takeWhile (fun m => !isFileLine m)) ++ '\n' :: unlines (b :: B) := by
          conv_lhs => rw [hsplit, hd]
          rw [← List.cons_append]
          exact unlines_append _ _ (by simp) (by simp)
        rw [ht]
        simp only [List.length_append, List.length_cons, Bool.false_eq_true, if_false]
        congr 1
        have : (unlines (l :: List.takeWhile (fun m => !isFileLine m) ls)).length
            + ((unlines (b :: B)).length + 1) - (unlines (b :: B)).length
            = (unlines (l :: List.takeWhile (fun m => !isFileLine m) ls) ++ ['\n']).length := by
          simp; omega
        rw [this, show unlines (l :: List.takeWhile (fun m => !isFileLine m) ls) ++ '\n' :: unlines (b :: B)
          = (unlines (l :: List.takeWhile (fun m => !isFileLine m) ls) ++ ['\n']) ++ unlines (b :: B) by simp]
        exact List.take_left' rfl
    · simp only [hf]
      exact ih

/-- Refinement: `SplitVbkmIntoRecords` computes the records given by the lines of `s`. -/
theorem SplitVbkmIntoRecords_eq (s : List Char) :
    SplitVbkmIntoRecords s = recordsOfLines (lines s) := by
  rw [SplitVbkmIntoRecords_eq_cutAt, cutAt_fileSuffixes]

theorem recordsOfLines_length (L : List (List Char)) :
    (recordsOfLines L).length = (L.filter isFileLine).length := by
  induction L with
  | nil => rfl
  | cons l ls ih =>
    rw [recordsOfLines_cons]
    by_cases hf : isFileLine l = true
    · simp [hf, ih]
    · simp [hf, ih]

theorem recordsOfLines_join (L : List (List Char)) :
    (recordsOfLines L).flatten = unlines (L.dropWhile (fun l => !isFileLine l)) := by
  induction L with
  | nil => rfl
  | cons l ls ih =>
    rw [recordsOfLines_cons]
    by_cases hf : isFileLine l = true
    · simp only [hf, if_true, List.flatten_cons, ih, List.dropWhile_cons, Bool.not_true,
        Bool.false_eq_true, if_false]
      have hsplit : ls = ls.takeWhile (fun m => !isFileLine m)
          ++ ls.dropWhile (fun m => !isFileLine m) := (List.takeWhile_append_dropWhile _ _).symm
      cases hd : ls.dropWhile (fun m => !isFileLine m) with
      | nil =>
        have hall : ls.all (fun m => !isFileLine m) = true := by
          rw [List.all_eq_true]
          exact List.dropWhile_eq_nil_iff.mp hd
        have htw : ls.takeWhile (fun m => !isFileLine m) = ls := by
          rw [hd, List.append_nil] at hsplit; exact hsplit.symm
        simp [hall, htw, unlines, List.intercalate]
      | cons b B =>
        have hall : ls.all (fun m => !isFileLine m) = false := by
          rw [Bool.eq_false_iff]
          intro h
          rw [List.all_eq_true] at h
          have := List.dropWhile_eq_nil_iff.mpr h
          rw [hd] at this
          exact List.cons_ne_nil _ _ this
        conv_rhs => rw [hsplit, hd, ← List.cons_append]
        rw [unlines_append _ _ (by simp) (by simp), hall]
        simp
    · simp only [hf, List.dropWhile_cons]
      simpa using ih

theorem fromFirstFileLine_suffix (s : List Char) : fromFirstFileLine s <:+ s := by
  have key : ∀ L : List (List Char),
      unlines (L.dropWhile (fun l => !isFileLine l)) <:+ unlines L := by
    intro L
    induction L with
    | nil => exact List.suffix_refl _
    | cons l ls ih =>
      rw [List.dropWhile_cons]
      by_cases hf : isFileLine l = true
      · simp [hf]
      · simp only [hf]
        exact ih.trans (unlines_suffix_cons l ls)
  have := key (lines s)
  rwa [unlines_lines] at this

theorem ParseUntil_fst_of_head_lines (r l : List Char) (h : (lines r).head? = some l) :
    (str.ParseUntil r '\n').1 = l := by
  cases hL : lines r with
  | nil => rw [hL] at h; simp at h
  | cons l' ls =>
    rw [hL] at h
    simp only [List.head?_cons, Option.some.injEq] at h
    subst h
    have hl : '\n' ∉ l' := not_mem_of_mem_lines r l' (by rw [hL]; exact List.mem_cons_self _ _)
    have hr : r = unlines (l' :: ls) := by rw [← hL, unlines_lines]
    cases ls with
    | nil =>
      rw [hr, unlines_singleton, str.ParseUntil_of_not_mem l' '\n' hl]
    | cons m ms =>
      rw [hr, unlines_cons_cons, str.ParseUntil_append_cons l' _ '\n' hl]

theorem Split_go_one (c : Char) (cur xs : List Char) : sv.Split.go c 1 cur xs = [cur ++ xs] := by
  induction xs generalizing cur with
  | nil => simp [sv.Split.go]
  | cons x xs ih => simp [sv.Split.go, ih]

theorem Split_go_two (c : Char) (cur k v : List Char) (hk : c ∉ k) :
    sv.Split.go c 2 cur (k ++ c :: v) = [cur ++ k, v] := by
  induction k generalizing cur with
  | nil => simp [sv.Split.go, Split_go_one]
  | cons x k ih =>
    have hx : x ≠ c := fun e => hk (by simp [e])
    have hk' : c ∉ k := fun e => hk (List.mem_cons_of_mem _ e)
    simp [sv.Split.go, hx, ih _ hk']

/-- The function `ParseLineFile` returns everything after the first ':' of the line. -/
theorem ParseLineFile_key_value (k v : List Char) (hk : ':' ∉ k) :
    ParseLineFile (k ++ ':' :: v) = v := by
  simp [ParseLineFile, sv.Split, Split_go_two ':' [] k v hk]

theorem ParseLineFile_file (v : List Char) : ParseLineFile ("file:".toList ++ v) = v :=
  ParseLineFile_key_value "file".toList v (by decide)

theorem rdropWhile_append_rtakeWhile (p : Char → Bool) (l : List Char) :
    l.rdropWhile p ++ l.rtakeWhile p = l := by
  simp only [List.rdropWhile, List.rtakeWhile, ← List.reverse_append,
    List.takeWhile_append_dropWhile, List.reverse_reverse]

theorem TrimSpace_isTrimOf (v : List Char) : IsTrimOf v (sv.TrimSpace v) := by
  refine ⟨v.takeWhile str.IsWs, (v.dropWhile str.IsWs).rtakeWhile str.IsWs, ?_, ?_, ?_, ?_, ?_⟩
  · unfold sv.TrimSpace
    rw [List.append_assoc, rdropWhile_append_rtakeWhile, List.takeWhile_append_dropWhile]
  · intro c hc; exact List.mem_takeWhile_imp hc
  · intro c hc; exact List.mem_rtakeWhile_imp hc
  · intro c hc
    unfold sv.TrimSpace at hc
    obtain ⟨b, hb⟩ := List.rdropWhile_prefix str.IsWs (l := v.dropWhile str.IsWs)
    cases hw : (v.dropWhile str.IsWs).rdropWhile str.IsWs with
    | nil => rw [hw] at hc; simp at hc
    | cons x xs =>
      rw [hw] at hc hb
      simp only [List.head?_cons, Option.some.injEq] at hc
      subst hc
      have := List.head?_dropWhile_not str.IsWs v
      rw [← hb] at this
      simpa using this
  · intro c hc
    unfold sv.TrimSpace at hc
    by_cases hne : (v.dropWhile str.IsWs).rdropWhile str.IsWs = []
    · rw [hne] at hc; simp at hc
    · have := List.rdropWhile_last_not str.IsWs (v.dropWhile str.IsWs) hne
      rw [List.getLast?_eq_getLast _ hne] at hc
      simp only [Option.some.injEq] at hc
      rw [hc] at this
      simpa using this

theorem ParseVbkmRecord_of_first_line (r v : List Char)
    (h : (lines r).head? = some ("file:".toList ++ v)) :
    ParseVbkmRecord r
      = if sv.TrimSpace v = [] then none
        else some { path := str.Dup (sv.TrimSpace v), engine := none } := by
  unfold ParseVbkmRecord
  simp only [ParseUntil_fst_of_head_lines r _ h, ParseLineFile_file, List.isEmpty_iff]

theorem isFileLine_decompose (l : List Char) (h : isFileLine l = true) :
    l = "file:".toList ++ valueOf l := by
  obtain ⟨v, hv⟩ := (isFileLine_iff l).mp h
  subst hv
  simp [valueOf]

theorem ParseVbkmRecord_eq_of_fst (r : List Char)
    (h : isFileLine (str.ParseUntil r '\n').1 = true) :
    ParseVbkmRecord r
      = if pathOfLine (str.ParseUntil r '\n').1 = [] then none
        else some { path := str.Dup (pathOfLine (str.ParseUntil r '\n').1), engine := none } := by
  have hd := isFileLine_decompose _ h
  unfold ParseVbkmRecord pathOfLine
  simp only [List.isEmpty_iff]
  conv_lhs => rw [hd, ParseLineFile_file]

theorem ParseUntil_fst_record (l t : List Char) (A : List (List Char)) (hl : '\n' ∉ l)
    (ht : t = [] ∨ t = ['\n']) :
    (str.ParseUntil (unlines (l :: A) ++ t) '\n').1 = l := by
  cases A with
  | nil =>
    rw [unlines_singleton]
    rcases ht with rfl | rfl
    · rw [List.append_nil, str.ParseUntil_of_not_mem l '\n' hl]
    · rw [str.ParseUntil_append_cons l [] '\n' hl]
  | cons a A =>
    rw [unlines_cons_cons, List.append_assoc, List.cons_append,
      str.ParseUntil_append_cons l _ '\n' hl]

theorem recordsOfLines_firstLine (L : List (List Char)) (hL : ∀ l ∈ L, '\n' ∉ l) :
    (recordsOfLines L).map (fun r => (str.ParseUntil r '\n').1) = L.filter isFileLine := by
  induction L with
  | nil => rfl
  | cons l ls ih =>
    have ih' := ih (fun x hx => hL x (List.mem_cons_of_mem _ hx))
    rw [recordsOfLines_cons]
    by_cases hf : isFileLine l = true
    · simp only [hf, if_true, List.map_cons, ih', List.filter_cons_of_pos]
      congr 1
      apply ParseUntil_fst_record _ _ _ (hL l (List.mem_cons_self _ _))
      by_cases hall : ls.all (fun m => !isFileLine m) = true
      · left; simp only [hall, if_true]
      · right; simp only [hall]; rfl
    · simp only [hf, Bool.false_eq_true, if_false, ih']
      rw [List.filter_cons_of_neg hf]

/-- The first lines of the records are the boundary lines of the text, in order. -/
theorem SplitVbkmIntoRecords_firstLine (s : List Char) :
    (SplitVbkmIntoRecords s).map (fun r => (str.ParseUntil r '\n').1) = fileLines s := by
  rw [SplitVbkmIntoRecords_eq]
  exact recordsOfLines_firstLine _ (not_mem_of_mem_lines s)

/-- The outcome of parsing one boundary line. -/
theorem SplitVbkmIntoRecords_map_parse (s : List Char) :
    (SplitVbkmIntoRecords s).map ParseVbkmRecord
      = (fileLines s).map (fun l =>
          if pathOfLine l = [] then none else some { path := str.Dup (pathOfLine l), engine := none }) := by
  rw [← SplitVbkmIntoRecords_firstLine, List.map_map]
  apply List.map_congr_left
  intro r hr
  have hmem : (str.ParseUntil r '\n').1 ∈ fileLines s := by
    rw [← SplitVbkmIntoRecords_firstLine]
    exact List.mem_map_of_mem _ hr
  have hfile : isFileLine (str.ParseUntil r '\n').1 = true := by
    unfold fileLines at hmem
    exact (List.mem_filter.mp hmem).2
  simp only [Function.comp_apply]
  exact ParseVbkmRecord_eq_of_fst r hfile

theorem parseRecords_eq (rs : List (List Char)) (files : List VbkmFile) :
    parseRecords rs files
      = if (rs.map ParseVbkmRecord).all Option.isSome
        then some { files := files ++ (rs.map ParseVbkmRecord).filterMap id }
        else none := by
  induction rs generalizing files with
  | nil => simp [parseRecords]
  | cons r rs ih =>
    cases hr : ParseVbkmRecord r with
    | none => simp [parseRecords, hr]
    | some f =>
      simp only [parseRecords, hr, ih, List.map_cons, List.all_cons, Option.isSome_some,
        Bool.true_and, List.filterMap_cons, id_eq, List.append_assoc, List.singleton_append]

theorem ParseVbkmFile_eq (d : List Char) :
    ParseVbkmFile d
      = if fileLines (NormalizeNewlines d) ≠ []
          ∧ ∀ l ∈ fileLines (NormalizeNewlines d), pathOfLine l ≠ []
        then some { files := (fileLines (NormalizeNewlines d)).map
                      (fun l => { path := str.Dup (pathOfLine l), engine := none }) }
        else none := by
  unfold ParseVbkmFile
  simp only [parseRecords_eq, SplitVbkmIntoRecords_map_parse, List.nil_append]
  have hlen : (SplitVbkmIntoRecords (NormalizeNewlines d)).length
      = (fileLines (NormalizeNewlines d)).length := by
    rw [← SplitVbkmIntoRecords_firstLine, List.length_map]
  rw [hlen]
  generalize fileLines (NormalizeNewlines d) = FL
  by_cases hFL : FL = []
  · simp [hFL]
  · have hlen0 : FL.length ≠ 0 := fun h => hFL (List.length_eq_zero.mp h)
    simp only [hlen0, if_false, ne_eq, hFL, not_false_eq_true, true_and]
    by_cases hall : ∀ l ∈ FL, pathOfLine l ≠ []
    · have h1 : (FL.map (fun l => if pathOfLine l = [] then none
          else some ({ path := str.Dup (pathOfLine l), engine := none } : VbkmFile)))
          = FL.map (fun l => some ({ path := str.Dup (pathOfLine l), engine := none } : VbkmFile)) := by
        apply List.map_congr_left
        intro l hl
        simp [hall l hl]
      rw [h1]
      have h2 : ∀ M : List (List Char),
          (M.map (fun l => some ({ path := str.Dup (pathOfLine l), engine := none } : VbkmFile))).filterMap id
            = M.map (fun l => ({ path := str.Dup (pathOfLine l), engine := none } : VbkmFile)) := by
        intro M
        induction M with
        | nil => rfl
        | cons m M ihM => simp [ihM]
      simp only [h2]
      rw [if_pos (by simp), if_pos hall]
    · rw [if_neg hall, if_neg]
      simp only [List.all_eq_true, List.mem_map, forall_exists_index, and_imp,
        forall_apply_eq_imp_iff₂, not_forall]
      push_neg at hall
      obtain ⟨l, hl, hp⟩ := hall
      exact ⟨l, hl, by simp [hp]⟩

theorem ParseVbkmFile_none_of_record_none (d : List Char)
    (h : ∃ r ∈ SplitVbkmIntoRecords (NormalizeNewlines d), ParseVbkmRecord r = none) :
    ParseVbkmFile d = none := by
  obtain ⟨r, hr, hnone⟩ := h
  unfold ParseVbkmFile
  simp only [parseRecords_eq]
  have hall : ((SplitVbkmIntoRecords (NormalizeNewlines d)).map ParseVbkmRecord).all Option.isSome
      = false := by
    rw [Bool.eq_false_iff]
    intro hall
    rw [List.all_eq_true] at hall
    have := hall _ (List.mem_map_of_mem ParseVbkmRecord hr)
    rw [hnone] at this
    simp at this
  simp [hall]

theorem Dup_of_no_nul (s : List Char) (h : '\x00' ∉ s) : str.Dup s = s := by
  unfold str.Dup
  apply List.takeWhile_eq_self_iff.mpr
  intro c hc
  simp only [bne_iff_ne, ne_eq]
  rintro rfl
  exact h hc

/-! ## Newline normalisation -/

theorem Replace_nil (a b : List Char) : str.Replace [] a b = [] := by
  rw [str.Replace]

theorem Replace_cr_cons (c : Char) (cs : List Char) :
    str.Replace (c :: cs) ['\r'] ['\n']
      = (if c = '\r' then '\n' else c) :: str.Replace cs ['\r'] ['\n'] := by
  rw [str.Replace]
  by_cases h : c = '\r'
  · subst h; simp
  · have h' : ¬ '\r' = c := fun e => h e.symm
    simp [h, h']

theorem Replace_cr_eq_map (s : List Char) :
    str.Replace s ['\r'] ['\n'] = s.map (fun c => if c = '\r' then '\n' else c) := by
  induction s with
  | nil => simp [Replace_nil]
  | cons c cs ih => rw [Replace_cr_cons, ih, List.map_cons]

theorem Replace_crlf_cons_ne (c : Char) (cs : List Char) (h : c ≠ '\r') :
    str.Replace (c :: cs) ['\r', '\n'] ['\n'] = c :: str.Replace cs ['\r', '\n'] ['\n'] := by
  rw [str.Replace]
  have h' : ¬ '\r' = c := fun e => h e.symm
  simp [h']

theorem Replace_crlf_cr_nil : str.Replace ['\r'] ['\r', '\n'] ['\n'] = ['\r'] := by
  rw [str.Replace]
  simp [Replace_nil]

theorem Replace_crlf_cr_lf (ds : List Char) :
    str.Replace ('\r' :: '\n' :: ds) ['\r', '\n'] ['\n']
      = '\n' :: str.Replace ds ['\r', '\n'] ['\n'] := by
  rw [str.Replace]
  simp

theorem Replace_crlf_cr_other (d : Char) (ds : List Char) (h : d ≠ '\n') :
    str.Replace ('\r' :: d :: ds) ['\r', '\n'] ['\n']
      = '\r' :: str.Replace (d :: ds) ['\r', '\n'] ['\n'] := by
  rw [str.Replace]
  have h' : ¬ '\n' = d := fun e => h e.symm
  simp [h']

theorem normalizeSpec_cons_ne (c : Char) (cs : List Char) (h : c ≠ '\r') :
    normalizeSpec (c :: cs) = c :: normalizeSpec cs := by
  cases cs with
  | nil => simp [normalizeSpec, h]
  | cons d ds => simp [normalizeSpec, h]

theorem normalizeSpec_cr_nil : normalizeSpec ['\r'] = ['\n'] := by
  simp [normalizeSpec]

theorem normalizeSpec_cr_lf (ds : List Char) :
    normalizeSpec ('\r' :: '\n' :: ds) = '\n' :: normalizeSpec ds := by
  simp [normalizeSpec]

theorem normalizeSpec_cr_other (d : Char) (ds : List Char) (h : d ≠ '\n') :
    normalizeSpec ('\r' :: d :: ds) = '\n' :: normalizeSpec (d :: ds) := by
  simp [normalizeSpec, h]

/-- Induction along the cases of `normalizeSpec`. -/
theorem newline_cases_induction (P : List Char → Prop) (h0 : P [])
    (h1 : ∀ c cs, c ≠ '\r' → P cs → P (c :: cs))
    (h2 : P ['\r'])
    (h3 : ∀ ds, P ds → P ('\r' :: '\n' :: ds))
    (h4 : ∀ d ds, d ≠ '\n' → P (d :: ds) → P ('\r' :: d :: ds)) :
    ∀ s, P s := by
  have key : ∀ n : Nat, ∀ s : List Char, s.length ≤ n → P s := by
    intro n
    induction n with
    | zero =>
      intro s hs
      have : s = [] := List.length_eq_zero.mp (Nat.le_zero.mp hs)
      subst this
      exact h0
    | succ n ih =>
      intro s hs
      match s, hs with
      | [], _ => exact h0
      | c :: cs, hs =>
        have hcs : cs.length ≤ n := by simpa using hs
        by_cases hc : c = '\r'
        · subst hc
          match cs, hcs with
          | [], _ => exact h2
          | d :: ds, hcs =>
            by_cases hd : d = '\n'
            · subst hd
              exact h3 ds (ih ds (by simp at hcs; omega))
            · exact h4 d ds hd (ih (d :: ds) hcs)
        · exact h1 c cs hc (ih cs hcs)
  exact fun s => key s.length s (Nat.le_refl _)

/-- Refinement: the two replacement passes of `NormalizeNewlines` compute the one-pass
normalisation of the specification. -/
theorem NormalizeNewlines_eq_normalizeSpec (s : List Char) :
    NormalizeNewlines s = normalizeSpec s := by
  show str.Replace (str.Replace s ['\r', '\n'] ['\n']) ['\r'] ['\n'] = normalizeSpec s
  simp only [Replace_cr_eq_map]
  induction s using newline_cases_induction with
  | h0 => simp [Replace_nil, normalizeSpec]
  | h1 c cs hc ih => rw [Replace_crlf_cons_ne c cs hc, normalizeSpec_cons_ne c cs hc]; simp [hc, ih]
  | h2 => rw [Replace_crlf_cr_nil, normalizeSpec_cr_nil]; simp
  | h3 ds ih => rw [Replace_crlf_cr_lf, normalizeSpec_cr_lf]; simp [ih]
  | h4 d ds hd ih => rw [Replace_crlf_cr_other d ds hd, normalizeSpec_cr_other d ds hd]; simp [ih]

theorem cr_not_mem_normalizeSpec (s : List Char) : '\r' ∉ normalizeSpec s := by
  induction s using newline_cases_induction with
  | h0 => simp [normalizeSpec]
  | h1 c cs hc ih =>
    rw [normalizeSpec_cons_ne c cs hc]
    simp only [List.mem_cons, not_or]
    exact ⟨fun e => hc e.symm, ih⟩
  | h2 => rw [normalizeSpec_cr_nil]; decide
  | h3 ds ih =>
    rw [normalizeSpec_cr_lf]
    simp only [List.mem_cons, not_or]
    exact ⟨by decide, ih⟩
  | h4 d ds hd ih =>
    rw [normalizeSpec_cr_other d ds hd]
    simp only [List.mem_cons, not_or]
    exact ⟨by decide, by simpa using ih⟩

theorem normalizeSpec_of_no_cr (s : List Char) (h : '\r' ∉ s) : normalizeSpec s = s := by
  induction s with
  | nil => rfl
  | cons c cs ih =>
    have hc : c ≠ '\r' := fun e => h (by simp [e])
    rw [normalizeSpec_cons_ne c cs hc, ih (fun e => h (List.mem_cons_of_mem _ e))]

/-- Refinement: `ParseVbkmFile` computes the parse the specification describes. -/
theorem ParseVbkmFile_eq_parseSpec (d : List Char) : ParseVbkmFile d = parseSpec d := by
  rw [ParseVbkmFile_eq, NormalizeNewlines_eq_normalizeSpec]
  rfl

theorem ParseVbkmFile_congr (d₁ d₂ : List Char)
    (h : NormalizeNewlines d₁ = NormalizeNewlines d₂) : ParseVbkmFile d₁ = ParseVbkmFile d₂ := by
  unfold ParseVbkmFile
  rw [h]

theorem normalizeSpec_toCRLF (t : List Char) (h : '\r' ∉ t) : normalizeSpec (toCRLF t) = t := by
  induction t with
  | nil => rfl
  | cons c cs ih =>
    have hc : c ≠ '\r' := fun e => h (by simp [e])
    have ih' := ih (fun e => h (List.mem_cons_of_mem _ e))
    have hcons : toCRLF (c :: cs) = (if c = '\n' then ['\r', '\n'] else [c]) ++ toCRLF cs := by
      simp [toCRLF]
    rw [hcons]
    by_cases hn : c = '\n'
    · subst hn
      simp only [if_true, List.cons_append, List.nil_append]
      rw [normalizeSpec_cr_lf, ih']
    · simp only [hn, if_false, List.cons_append, List.nil_append]
      rw [normalizeSpec_cons_ne _ _ hc, ih']

theorem normalizeSpec_toCR (t : List Char) (h : '\r' ∉ t) : normalizeSpec (toCR t) = t := by
  induction t with
  | nil => rfl
  | cons c cs ih =>
    have hc : c ≠ '\r' := fun e => h (by simp [e])
    have ih' := ih (fun e => h (List.mem_cons_of_mem _ e))
    have hcons : toCR (c :: cs) = (if c = '\n' then '\r' else c) :: toCR cs := by
      simp [toCR]
    rw [hcons]
    by_cases hn : c = '\n'
    · subst hn
      simp only [if_true]
      cases hcs : toCR cs with
      | nil =>
        rw [hcs] at ih'
        rw [normalizeSpec_cr_nil, ← ih']
        rfl
      | cons d ds =>
        have hd : d ≠ '\n' := by
          have hmem : d ∈ toCR cs := by rw [hcs]; exact List.mem_cons_self _ _
          unfold toCR at hmem
          obtain ⟨x, _, hx⟩ := List.mem_map.mp hmem
          by_cases hxn : x = '\n'
          · simp only [hxn, if_true] at hx
            rw [← hx]; decide
          · simp only [hxn, if_false] at hx
            rw [← hx]; exact hxn
        rw [normalizeSpec_cr_other d ds hd, ← hcs, ih']
    · simp only [hn, if_false]
      rw [normalizeSpec_cons_ne _ _ hc, ih']

/-! ## Lines of a concatenation -/

theorem lines_append_nl (x y : List Char) : lines (x ++ '\n' :: y) = lines x ++ lines y := by
  induction x with
  | nil =>
    rw [List.nil_append, lines_cons]
    simp [lines, List.splitOn_nil]
  | cons c x ih =>
    rw [List.cons_append, lines_cons, lines_cons, ih]
    by_cases hc : c = '\n'
    · simp [hc]
    · simp only [hc, if_false]
      cases hx : lines x with
      | nil => exact absurd hx (lines_ne_nil x)
      | cons a as => simp

theorem fileLines_append_nl (x y : List Char) :
    fileLines (x ++ '\n' :: y) = fileLines x ++ fileLines y := by
  unfold fileLines
  rw [lines_append_nl, List.filter_append]

theorem lines_nil : lines [] = [[]] := by
  simp [lines, List.splitOn_nil]

theorem fileLines_nil : fileLines [] = [] := by
  rw [fileLines, lines_nil]
  rfl

theorem lines_of_not_mem (l : List Char) (h : '\n' ∉ l) : lines l = [l] := by
  have := lines_unlines [l] (by simp) (by simpa using h)
  rwa [unlines_singleton] at this

theorem fileLines_ne_nil_of_prefix (u : List Char) (h : "file:".toList <+: u) :
    fileLines u ≠ [] := by
  cases hL : lines u with
  | nil => exact absurd hL (lines_ne_nil u)
  | cons a as =>
    have ha : '\n' ∉ a := not_mem_of_mem_lines u a (by rw [hL]; exact List.mem_cons_self _ _)
    have hu : u = unlines (a :: as) := by rw [← hL, unlines_lines]
    have hfst : (str.ParseUntil u '\n').1 = a :=
      ParseUntil_fst_of_head_lines u a (by rw [hL]; rfl)
    obtain ⟨w, hw⟩ := h
    have hpre : "file:".toList <+: a := by
      rw [← hfst, ← hw]
      simp [str.ParseUntil]
    have hfa : isFileLine a = true := (isFileLine_iff a).mpr hpre
    unfold fileLines
    rw [hL, List.filter_cons_of_pos hfa]
    exact List.cons_ne_nil _ _

theorem unlines_prefix_cons (l : List Char) (ls : List (List Char)) :
    l <+: unlines (l :: ls) := by
  cases ls with
  | nil => rw [unlines_singleton]
  | cons m ms => rw [unlines_cons_cons]; exact List.prefix_append _ _

/-- A text with a boundary line is a boundary-line start, possibly after complete lines. -/
theorem exists_file_start (t : List Char) (h : fileLines t ≠ []) :
    ∃ x y : List Char, (t = y ∨ t = x ++ '\n' :: y) ∧ "file:".toList <+: y := by
  have key : ∀ L : List (List Char), L.filter isFileLine ≠ [] →
      ∃ x y : List Char, (unlines L = y ∨ unlines L = x ++ '\n' :: y) ∧ "file:".toList <+: y := by
    intro L
    induction L with
    | nil => intro hne; exact absurd rfl hne
    | cons l ls ih =>
      intro hne
      by_cases hf : isFileLine l = true
      · exact ⟨[], unlines (l :: ls), Or.inl rfl,
          ((isFileLine_iff l).mp hf).trans (unlines_prefix_cons l ls)⟩
      · rw [List.filter_cons_of_neg hf] at hne
        obtain ⟨x, y, hxy, hy⟩ := ih hne
        cases ls with
        | nil => exact absurd rfl hne
        | cons m ms =>
          rw [unlines_cons_cons]
          rcases hxy with hxy | hxy
          · exact ⟨l, y, Or.inr (by rw [hxy]), hy⟩
          · exact ⟨l ++ '\n' :: x, y, Or.inr (by rw [hxy]; simp), hy⟩
  have := key (lines t) h
  rwa [unlines_lines] at this

theorem normalizeSpec_append (x y : List Char)
    (h : x.getLast? ≠ some '\r' ∨ y.head? ≠ some '\n') :
    normalizeSpec (x ++ y) = normalizeSpec x ++ normalizeSpec y := by
  induction x using newline_cases_induction with
  | h0 => rfl
  | h1 c cs hc ih =>
    have h' : cs.getLast? ≠ some '\r' ∨ y.head? ≠ some '\n' := by
      rcases h with h | h
      · cases cs with
        | nil => left; simp
        | cons d ds => left; simpa [List.getLast?_cons_cons] using h
      · exact Or.inr h
    rw [List.cons_append, normalizeSpec_cons_ne _ _ hc, normalizeSpec_cons_ne _ _ hc, ih h']
    rfl
  | h2 =>
    have hy : y.head? ≠ some '\n' := by
      rcases h with h | h
      · exact absurd rfl h
      · exact h
    cases y with
    | nil => rfl
    | cons d ds =>
      have hd : d ≠ '\n' := by simpa using hy
      rw [List.singleton_append, normalizeSpec_cr_other d ds hd, normalizeSpec_cr_nil]
      rfl
  | h3 ds ih =>
    have h' : ds.getLast? ≠ some '\r' ∨ y.head? ≠ some '\n' := by
      rcases h with h | h
      · cases ds with
        | nil => left; simp
        | cons e es => left; simpa [List.getLast?_cons_cons] using h
      · exact Or.inr h
    rw [List.cons_append, List.cons_append, normalizeSpec_cr_lf, normalizeSpec_cr_lf, ih h']
    rfl
  | h4 d ds hd ih =>
    have h' : (d :: ds).getLast? ≠ some '\r' ∨ y.head? ≠ some '\n' := by
      rcases h with h | h
      · left; simpa [List.getLast?_cons_cons] using h
      · exact Or.inr h
    rw [List.cons_append, List.cons_append, normalizeSpec_cr_other d _ hd,
      normalizeSpec_cr_other d ds hd, ← List.cons_append, ih h']
    rfl

theorem normalizeSpec_append_nl (x : List Char) :
    ∃ z : List Char, normalizeSpec (x ++ ['\n']) = z ++ ['\n'] := by
  induction x using newline_cases_induction with
  | h0 => exact ⟨[], by decide⟩
  | h1 c cs hc ih =>
    obtain ⟨z, hz⟩ := ih
    exact ⟨c :: z, by rw [List.cons_append, normalizeSpec_cons_ne _ _ hc, hz]; rfl⟩
  | h2 => exact ⟨[], by decide⟩
  | h3 ds ih =>
    obtain ⟨z, hz⟩ := ih
    exact ⟨'\n' :: z, by rw [List.cons_append, List.cons_append, normalizeSpec_cr_lf, hz]; rfl⟩
  | h4 d ds hd ih =>
    obtain ⟨z, hz⟩ := ih
    exact ⟨'\n' :: z, by
      rw [List.cons_append, List.cons_append, normalizeSpec_cr_other d _ hd, ← List.cons_append,
        hz]; rfl⟩

theorem normalizeSpec_file_prefix (y : List Char) (h : "file:".toList <+: y) :
    "file:".toList <+: normalizeSpec y := by
  obtain ⟨w, rfl⟩ := h
  show "file:".toList <+: normalizeSpec ('f' :: 'i' :: 'l' :: 'e' :: ':' :: w)
  rw [normalizeSpec_cons_ne _ _ (by decide), normalizeSpec_cons_ne _ _ (by decide),
    normalizeSpec_cons_ne _ _ (by decide), normalizeSpec_cons_ne _ _ (by decide),
    normalizeSpec_cons_ne _ _ (by decide)]
  exact ⟨normalizeSpec w, rfl⟩

/-- Normalising the line endings never removes a boundary line. -/
theorem fileLines_normalizeSpec_ne_nil (t : List Char) (h : fileLines t ≠ []) :
    fileLines (normalizeSpec t) ≠ [] := by
  obtain ⟨x, y, hxy, hy⟩ := exists_file_start t h
  have hny := normalizeSpec_file_prefix y hy
  rcases hxy with rfl | rfl
  · exact fileLines_ne_nil_of_prefix _ hny
  · have hhead : y.head? ≠ some '\n' := by
      obtain ⟨w, rfl⟩ := hy
      simp
    have e1 : x ++ '\n' :: y = (x ++ ['\n']) ++ y := by simp
    obtain ⟨z, hz⟩ := normalizeSpec_append_nl x
    rw [e1, normalizeSpec_append _ _ (Or.inr hhead), hz, List.append_assoc, List.singleton_append,
      fileLines_append_nl]
    intro hnil
    exact fileLines_ne_nil_of_prefix _ hny (List.append_eq_nil.mp hnil).2

theorem SplitVbkmIntoRecords_eq_nil (s : List Char) (h : fileLines s = []) :
    SplitVbkmIntoRecords s = [] := by
  apply List.length_eq_zero.mp
  rw [SplitVbkmIntoRecords_eq, recordsOfLines_length]
  exact List.length_eq_zero.mpr h

/-! ## Content before the first boundary line -/

theorem joinLines_cons (l : List Char) (P : List (List Char)) :
    joinLines (l :: P) = l ++ '\n' :: joinLines P := by
  simp [joinLines]

theorem lines_joinLines_append (P : List (List Char)) (t : List Char)
    (hP : ∀ l ∈ P, '\n' ∉ l) : lines (joinLines P ++ t) = P ++ lines t := by
  induction P with
  | nil => rfl
  | cons l P ih =>
    rw [joinLines_cons, List.append_assoc, List.cons_append, lines_append_nl,
      lines_of_not_mem l (hP l (List.mem_cons_self _ _)),
      ih (fun x hx => hP x (List.mem_cons_of_mem _ hx))]
    rfl

theorem recordsOfLines_append_of_not_file (P L : List (List Char))
    (hP : ∀ l ∈ P, isFileLine l = false) : recordsOfLines (P ++ L) = recordsOfLines L := by
  induction P with
  | nil => rfl
  | cons l P ih =>
    rw [List.cons_append, recordsOfLines_cons, hP l (List.mem_cons_self _ _)]
    simpa using ih (fun x hx => hP x (List.mem_cons_of_mem _ hx))

theorem SplitVbkmIntoRecords_joinLines_append (P : List (List Char)) (t : List Char)
    (hP : ∀ l ∈ P, '\n' ∉ l ∧ isFileLine l = false) :
    SplitVbkmIntoRecords (joinLines P ++ t) = SplitVbkmIntoRecords t := by
  rw [SplitVbkmIntoRecords_eq, SplitVbkmIntoRecords_eq,
    lines_joinLines_append P t (fun l hl => (hP l hl).1),
    recordsOfLines_append_of_not_file P _ (fun l hl => (hP l hl).2)]

theorem fileLines_joinLines (P : List (List Char))
    (hP : ∀ l ∈ P, '\n' ∉ l ∧ isFileLine l = false) : fileLines (joinLines P) = [] := by
  have h := lines_joinLines_append P [] (fun l hl => (hP l hl).1)
  rw [List.append_nil, lines_nil] at h
  unfold fileLines
  rw [h, List.filter_append, List.filter_eq_nil_iff.mpr (fun l hl => by simp [(hP l hl).2])]
  rfl

theorem joinLines_nil_or_ends_nl (P : List (List Char)) :
    joinLines P = [] ∨ ∃ x : List Char, joinLines P = x ++ ['\n'] := by
  induction P with
  | nil => exact Or.inl rfl
  | cons l P ih =>
    right
    rw [joinLines_cons]
    rcases ih with h | ⟨x, hx⟩
    · exact ⟨l, by rw [h]⟩
    · exact ⟨l ++ '\n' :: x, by rw [hx]; simp⟩

theorem ParseVbkmFile_congr_fileLines (d₁ d₂ : List Char)
    (h : fileLines (NormalizeNewlines d₁) = fileLines (NormalizeNewlines d₂)) :
    ParseVbkmFile d₁ = ParseVbkmFile d₂ := by
  rw [ParseVbkmFile_eq, ParseVbkmFile_eq, h]

/-- A prefix that ends at a line end and has no boundary line after normalisation does
not change the boundary lines the parser sees. -/
theorem fileLines_normalize_prefix (p t : List Char)
    (hp : p = [] ∨ ∃ x : List Char, p = x ++ ['\n'])
    (hf : fileLines (normalizeSpec p) = []) :
    fileLines (normalizeSpec (p ++ t)) = fileLines (normalizeSpec t) := by
  rcases hp with rfl | ⟨x, rfl⟩
  · rfl
  · have hlast : (x ++ ['\n']).getLast? ≠ some '\r' := by simp
    obtain ⟨z, hz⟩ := normalizeSpec_append_nl x
    rw [hz] at hf
    have hz' : fileLines z = [] := by
      have : z ++ ['\n'] = z ++ '\n' :: [] := rfl
      rw [this, fileLines_append_nl, fileLines_nil, List.append_nil] at hf
      exact hf
    rw [normalizeSpec_append _ _ (Or.inl hlast), hz, List.append_assoc, List.singleton_append,
      fileLines_append_nl, hz', List.nil_append]

/-! ## Shape of the records -/

theorem recordsOfLines_mem_shape (L : List (List Char)) :
    ∀ r ∈ recordsOfLines L, ∃ (l : List Char) (A : List (List Char)) (t : List Char),
      r = unlines (l :: A) ++ t ∧ isFileLine l = true ∧ l ∈ L ∧
        (∀ a ∈ A, a ∈ L ∧ isFileLine a = false) ∧ (t = [] ∨ t = ['\n']) := by
  induction L with
  | nil => intro r hr; simp [recordsOfLines] at hr
  | cons l ls ih =>
    intro r hr
    have lift : (∃ (l' : List Char) (A : List (List Char)) (t : List Char),
        r = unlines (l' :: A) ++ t ∧ isFileLine l' = true ∧ l' ∈ ls ∧
          (∀ a ∈ A, a ∈ ls ∧ isFileLine a = false) ∧ (t = [] ∨ t = ['\n'])) →
        ∃ (l' : List Char) (A : List (List Char)) (t : List Char),
        r = unlines (l' :: A) ++ t ∧ isFileLine l' = true ∧ l' ∈ l :: ls ∧
          (∀ a ∈ A, a ∈ l :: ls ∧ isFileLine a = false) ∧ (t = [] ∨ t = ['\n']) := by
      rintro ⟨l', A, t, h1, h2, h3, h4, h5⟩
      exact ⟨l', A, t, h1, h2, List.mem_cons_of_mem _ h3,
        fun a ha => ⟨List.mem_cons_of_mem _ (h4 a ha).1, (h4 a ha).2⟩, h5⟩
    rw [recordsOfLines_cons] at hr
    by_cases hf : isFileLine l = true
    · simp only [hf, if_true, List.mem_cons] at hr
      rcases hr with rfl | hr
      · refine ⟨l, ls.takeWhile (fun m => !isFileLine m), _, rfl, hf, List.mem_cons_self _ _, ?_, ?_⟩
        · intro a ha
          exact ⟨List.mem_cons_of_mem _ ((List.takeWhile_sublist _).subset ha),
            takeWhile_not_file ls a ha⟩
        · by_cases hall : ls.all (fun m => !isFileLine m) = true
          · left; simp only [hall, if_true]
          · right; simp only [hall]; rfl
      · exact lift (ih r hr)
    · simp only [hf] at hr
      exact lift (ih r hr)

theorem lines_record (l t : List Char) (A : List (List Char))
    (hlA : ∀ a ∈ l :: A, '\n' ∉ a) (ht : t = [] ∨ t = ['\n']) :
    lines (unlines (l :: A) ++ t) = l :: (A ++ (if t = [] then [] else [[]])) := by
  rcases ht with rfl | rfl
  · rw [List.append_nil, lines_unlines _ (by simp) hlA]
    simp
  · have : unlines (l :: A) ++ ['\n'] = unlines (l :: A) ++ '\n' :: [] := rfl
    rw [this, lines_append_nl, lines_unlines _ (by simp) hlA, lines_nil]
    simp

theorem head?_lines (r : List Char) : (lines r).head? = some (str.ParseUntil r '\n').1 := by
  cases hL : lines r with
  | nil => exact absurd hL (lines_ne_nil r)
  | cons a as =>
    rw [ParseUntil_fst_of_head_lines r a (by rw [hL]; rfl)]
    rfl

theorem recordsOfLines_dropLast (L : List (List Char)) :
    ∀ r ∈ (recordsOfLines L).dropLast, r.getLast? = some '\n' := by
  induction L with
  | nil => intro r hr; simp [recordsOfLines] at hr
  | cons l ls ih =>
    intro r hr
    rw [recordsOfLines_cons] at hr
    by_cases hf : isFileLine l = true
    · simp only [hf, if_true] at hr
      cases hrest : recordsOfLines ls with
      | nil => rw [hrest] at hr; simp at hr
      | cons r' rs =>
        have hall : ls.all (fun m => !isFileLine m) = false := by
          rw [Bool.eq_false_iff]
          intro h
          have hlen := recordsOfLines_length ls
          rw [hrest, List.filter_eq_nil_iff.mpr (by
            intro a ha
            have := List.all_eq_true.mp h a ha
            simpa using this)] at hlen
          simp at hlen
        rw [hrest, List.dropLast_cons₂, List.mem_cons, hall] at hr
        rcases hr with rfl | hr
        · simp
        · rw [← hrest] at hr
          exact ih r hr
    · simp only [hf] at hr
      exact ih r hr

/-! ## Case-insensitive extension test -/

theorem char_eq_of_toNat (c d : Char) (h : c.toNat = d.toNat) : c = d := by
  apply Char.ext
  apply UInt32.ext
  exact h

theorem lowerCode_eq_letter (c l u : Char) (hu : u.toNat + 32 = l.toNat)
    (h : str.lowerCode c = l.toNat) : c = l ∨ c = u := by
  unfold str.lowerCode at h
  have hA : 'A'.toNat = 65 := rfl
  have hZ : 'Z'.toNat = 90 := rfl
  by_cases hc : 'A'.toNat ≤ c.toNat ∧ c.toNat ≤ 'Z'.toNat
  · rw [if_pos hc] at h
    right; apply char_eq_of_toNat; omega
  · rw [if_neg hc] at h
    left; exact char_eq_of_toNat _ _ h

theorem lowerCode_eq_dot (c : Char) (h : str.lowerCode c = '.'.toNat) : c = '.' := by
  unfold str.lowerCode at h
  have hA : 'A'.toNat = 65 := rfl
  have hZ : 'Z'.toNat = 90 := rfl
  have hd : '.'.toNat = 46 := rfl
  by_cases hc : 'A'.toNat ≤ c.toNat ∧ c.toNat ≤ 'Z'.toNat
  · rw [if_pos hc] at h; omega
  · rw [if_neg hc] at h
    exact char_eq_of_toNat _ _ h

theorem EndsWithI_vbkm_iff (f : List Char) :
    str.EndsWithI f ".vbkm".toList = true ↔ HasVbkmExtension f := by
  constructor
  · intro h
    unfold str.EndsWithI at h
    by_cases hlen : ".vbkm".toList.length > f.length
    · rw [if_pos hlen] at h; exact absurd h (by simp)
    · rw [if_neg hlen] at h
      have h5 : ".vbkm".toList.length = 5 := rfl
      rw [h5] at h hlen
      have hsplit : f = f.take (f.length - 5) ++ f.drop (f.length - 5) :=
        (List.take_append_drop _ _).symm
      have hdl : (f.drop (f.length - 5)).length = 5 := by
        rw [List.length_drop]; omega
      match hd : f.drop (f.length - 5), hdl with
      | [c0, v, b, k, m], _ =>
        rw [hd] at h hsplit
        have hmap : [c0, v, b, k, m].map str.lowerCode = ".vbkm".toList.map str.lowerCode := by
          simpa using h
        have hcodes : ".vbkm".toList.map str.lowerCode
            = ['.'.toNat, 'v'.toNat, 'b'.toNat, 'k'.toNat, 'm'.toNat] := by decide
        rw [hcodes] at hmap
        simp only [List.map_cons, List.map_nil, List.cons.injEq, and_true] at hmap
        obtain ⟨e0, e1, e2, e3, e4⟩ := hmap
        have h0 := lowerCode_eq_dot c0 e0
        subst h0
        exact ⟨_, v, b, k, m, hsplit,
          lowerCode_eq_letter v 'v' 'V' (by decide) e1,
          lowerCode_eq_letter b 'b' 'B' (by decide) e2,
          lowerCode_eq_letter k 'k' 'K' (by decide) e3,
          lowerCode_eq_letter m 'm' 'M' (by decide) e4⟩
  · rintro ⟨pre, v, b, k, m, rfl, hv, hb, hk, hm⟩
    unfold str.EndsWithI
    have h5 : ".vbkm".toList.length = 5 := rfl
    have hlen : ¬ (".vbkm".toList.length > (pre ++ ['.', v, b, k, m]).length) := by
      rw [h5]; simp
    rw [if_neg hlen, h5]
    have hdrop : (pre ++ ['.', v, b, k, m]).drop ((pre ++ ['.', v, b, k, m]).length - 5)
        = ['.', v, b, k, m] := by
      have : (pre ++ ['.', v, b, k, m]).length - 5 = pre.length := by simp
      rw [this, List.drop_left]
    rw [hdrop]
    rcases hv with rfl | rfl <;> rcases hb with rfl | rfl <;> rcases hk with rfl | rfl <;>
      rcases hm with rfl | rfl <;> decide

/-! ## Loading -/

theorem Load_eq (ReadFile : List Char → List Char) (self : EnginePdfMultiImpl)
    (fileName : List Char) (pwdUI : Option Unit) :
    self.Load ReadFile fileName pwdUI = (false, self) := by
  unfold EnginePdfMultiImpl.Load
  by_cases h : (ReadFile fileName).isEmpty = true
  · simp only [h, if_true]
  · simp only [h]
    rfl

theorem CreateFromFile_eq_none (ReadFile : List Char → List Char) (fileName : List Char)
    (pwdUI : Option Unit) : EnginePdfMultiImpl.CreateFromFile ReadFile fileName pwdUI = none := by
  unfold EnginePdfMultiImpl.CreateFromFile
  by_cases h : str.IsEmpty fileName = true
  · simp only [h, if_true]
  · simp only [h, Load_eq]
    rfl

theorem ParseVbkmFile_eq_none_iff (d : List Char) :
    ParseVbkmFile d = none ↔
      (fileLines (NormalizeNewlines d) = [] ∨
        ∃ l ∈ fileLines (NormalizeNewlines d), sv.TrimSpace (valueOf l) = []) := by
  rw [ParseVbkmFile_eq]
  by_cases h : fileLines (NormalizeNewlines d) ≠ []
      ∧ ∀ l ∈ fileLines (NormalizeNewlines d), pathOfLine l ≠ []
  · rw [if_pos h]
    constructor
    · intro hc; exact absurd hc (by simp)
    · rintro (h0 | ⟨l, hl, hp⟩)
      · exact absurd h0 h.1
      · exact absurd hp (h.2 l hl)
  · rw [if_neg h]
    constructor
    · intro _
      by_cases h0 : fileLines (NormalizeNewlines d) = []
      · exact Or.inl h0
      · right
        by_contra hne
        apply h
        refine ⟨h0, fun l hl hp => hne ⟨l, hl, hp⟩⟩
    · intro _; rfl

theorem totalPageCount_nonneg (counts : List Nat) : 0 ≤ totalPageCount counts := by
  unfold totalPageCount
  exact Int.ofNat_nonneg _

/-! ## Characters of the parts of a text -/

theorem mem_of_mem_TrimSpace (v : List Char) (c : Char) (h : c ∈ sv.TrimSpace v) : c ∈ v := by
  unfold sv.TrimSpace at h
  have h1 := (List.rdropWhile_prefix str.IsWs (l := v.dropWhile str.IsWs)).subset h
  exact (List.dropWhile_sublist str.IsWs).subset h1

/-- C1. For every text `s` that has exactly `N` lines (separated by '\n') beginning with
"file:", `SplitVbkmIntoRecords s` returns exactly `N` records, and when `N ≥ 1` the
records, concatenated in order, are the suffix of `s` that starts at its first line
beginning with "file:". -/
theorem SplitVbkmIntoRecords_count_concat (s : List Char) (N : Nat)
    (hN : (fileLines s).length = N) :
    (SplitVbkmIntoRecords s).length = N ∧
      (1 ≤ N → (SplitVbkmIntoRecords s).flatten = fromFirstFileLine s
        ∧ fromFirstFileLine s <:+ s) := by
  rw [SplitVbkmIntoRecords_eq]
  refine ⟨?_, fun _ => ⟨?_, fromFirstFileLine_suffix s⟩⟩
  · rw [recordsOfLines_length]; exact hN
  · exact recordsOfLines_join _

/-- Witness of C1 on a manifest with a discarded first line and two records. -/
theorem SplitVbkmIntoRecords_count_concat_witness :
    (fileLines "junk\nfile: a\nmeta\nfile:b\n".toList).length = 2 ∧
    (SplitVbkmIntoRecords "junk\nfile: a\nmeta\nfile:b\n".toList).length = 2 ∧
      (1 ≤ 2 → (SplitVbkmIntoRecords "junk\nfile: a\nmeta\nfile:b\n".toList).flatten
          = fromFirstFileLine "junk\nfile: a\nmeta\nfile:b\n".toList
        ∧ fromFirstFileLine "junk\nfile: a\nmeta\nfile:b\n".toList
          <:+ "junk\nfile: a\nmeta\nfile:b\n".toList) :=
  ⟨by decide, SplitVbkmIntoRecords_count_concat _ 2 (by decide)⟩

/-- C2, as the code has it. For every record text whose first line is "file:" followed
by a value `v`, `ParseVbkmRecord` fails (returns `none`) when the trimmed `v` is empty;
otherwise the path of the returned record is the trimmed `v` stored as a NUL-terminated
C string: the characters of the trimmed `v` before its first NUL (stated for a trimmed
`v` that does not begin with NUL). So for a `v` without NUL the path is `v` with the
surrounding whitespace trimmed, every further ':' of `v` kept; "file: foo/bar.pdf"
gives the path "foo/bar.pdf", "file: C:\docs\a.pdf" the path "C:\docs\a.pdf", and
"file:   " fails. -/
theorem ParseVbkmRecord_path :
    (∀ r v : List Char, (lines r).head? = some ("file:".toList ++ v) →
      IsTrimOf v (sv.TrimSpace v) ∧
      (sv.TrimSpace v = [] → ParseVbkmRecord r = none) ∧
      ((sv.TrimSpace v).head? ≠ some '\x00' →
        ParseVbkmRecord r
          = if sv.TrimSpace v = [] then none
            else some { path := (sv.TrimSpace v).takeWhile (fun c => c != '\x00'),
                        engine := none }) ∧
      ('\x00' ∉ v →
        ParseVbkmRecord r
          = if sv.TrimSpace v = [] then none
            else some { path := sv.TrimSpace v, engine := none })) ∧
    ParseVbkmRecord "file: foo/bar.pdf".toList = some { path := "foo/bar.pdf".toList } ∧
    ParseVbkmRecord "file: C:\\docs\\a.pdf\nmore".toList
      = some { path := "C:\\docs\\a.pdf".toList } ∧
    ParseVbkmRecord "file:   ".toList = none := by
  refine ⟨fun r v h => ⟨TrimSpace_isTrimOf v, ?_, ?_, ?_⟩, ?_, ?_, ?_⟩
  · intro he
    rw [ParseVbkmRecord_of_first_line r v h, if_pos he]
  · intro _
    exact ParseVbkmRecord_of_first_line r v h
  · intro hv
    have hw : '\x00' ∉ sv.TrimSpace v := fun hc => hv (mem_of_mem_TrimSpace v _ hc)
    rw [ParseVbkmRecord_of_first_line r v h, Dup_of_no_nul _ hw]
  · decide
  · decide
  · decide

/-- C2 as stated fails: the value " a", NUL, "b" trims to "a", NUL, "b", but the path is
a `char*`, and the record's path is the C string "a". -/
theorem ParseVbkmRecord_path_counterexample :
    (lines "file: a\x00b".toList).head? = some ("file:".toList ++ " a\x00b".toList) ∧
    sv.TrimSpace " a\x00b".toList = "a\x00b".toList ∧
    ParseVbkmRecord "file: a\x00b".toList = some { path := "a".toList } ∧
    ParseVbkmRecord "file: a\x00b".toList
      ≠ some { path := sv.TrimSpace " a\x00b".toList } := by
  refine ⟨by decide, by decide, by decide, by decide⟩

/-- Witness of C2: a record with a metadata line and a value holding a second ':'. -/
theorem ParseVbkmRecord_path_witness :
    (lines "file:\t a:b \nmeta".toList).head? = some ("file:".toList ++ "\t a:b ".toList) ∧
    sv.TrimSpace "\t a:b ".toList = "a:b".toList ∧
    ParseVbkmRecord "file:\t a:b \nmeta".toList = some { path := "a:b".toList } := by
  have h := (ParseVbkmRecord_path.1 "file:\t a:b \nmeta".toList "\t a:b ".toList
    (by decide)).2.2.2 (by decide)
  exact ⟨by decide, by decide, by rw [h]; decide⟩

/-- C3. For every input text with zero lines beginning with "file:" (the empty text
included), `ParseVbkmFile` fails (returns `none`) and `SplitVbkmIntoRecords` returns the
empty list. The lines of the input text are those of the manifest grammar, in which a
"\r\n" pair and a lone "\r" end a line as "\n" does: the lines of `normalizeSpec t`.
For `SplitVbkmIntoRecords` alone it is enough that no '\n'-separated line of its
argument begins with "file:". -/
theorem no_file_line_no_records (t : List Char) :
    (fileLines (normalizeSpec t) = [] →
      ParseVbkmFile t = none ∧ SplitVbkmIntoRecords t = [] ∧
        SplitVbkmIntoRecords (NormalizeNewlines t) = []) ∧
    (fileLines t = [] → SplitVbkmIntoRecords t = []) ∧
    ParseVbkmFile [] = none ∧ SplitVbkmIntoRecords [] = [] := by
  refine ⟨fun h => ⟨?_, ?_, ?_⟩, SplitVbkmIntoRecords_eq_nil t, ?_,
    SplitVbkmIntoRecords_eq_nil [] fileLines_nil⟩
  · rw [ParseVbkmFile_eq, NormalizeNewlines_eq_normalizeSpec, if_neg]
    exact fun hc => hc.1 h
  · apply SplitVbkmIntoRecords_eq_nil
    by_contra hne
    exact fileLines_normalizeSpec_ne_nil t hne h
  · rw [NormalizeNewlines_eq_normalizeSpec]
    exact SplitVbkmIntoRecords_eq_nil _ h
  · rw [ParseVbkmFile_eq_parseSpec]; decide

/-- Witness of C3: a text with mixed line endings and no line beginning with "file:"
(the prefix is indented, capitalised or inside a line). -/
theorem no_file_line_no_records_witness :
    fileLines (normalizeSpec "notes\r\n file: a\rFile: b\nmy file: c".toList) = [] ∧
    ParseVbkmFile "notes\r\n file: a\rFile: b\nmy file: c".toList = none ∧
    SplitVbkmIntoRecords "notes\r\n file: a\rFile: b\nmy file: c".toList = [] ∧
    SplitVbkmIntoRecords (NormalizeNewlines "notes\r\n file: a\rFile: b\nmy file: c".toList)
      = [] :=
  ⟨by decide, (no_file_line_no_records _).1 (by decide)⟩

/-- C4. `ParseVbkmFile` is fail-fast: it returns a manifest if and only if the normalised
text has at least one line beginning with "file:" and every such line has a non-empty
trimmed value after its first ':'; as soon as one record fails to parse the result is
`none`, never a manifest of the records that parsed. -/
theorem ParseVbkmFile_fail_fast (d : List Char) :
    ((∃ m, ParseVbkmFile d = some m) ↔
      (fileLines (NormalizeNewlines d) ≠ [] ∧
        ∀ l ∈ fileLines (NormalizeNewlines d), sv.TrimSpace (valueOf l) ≠ [])) ∧
    ((∃ r ∈ SplitVbkmIntoRecords (NormalizeNewlines d), ParseVbkmRecord r = none) →
      ParseVbkmFile d = none) := by
  refine ⟨?_, ParseVbkmFile_none_of_record_none d⟩
  rw [ParseVbkmFile_eq]
  by_cases h : fileLines (NormalizeNewlines d) ≠ []
      ∧ ∀ l ∈ fileLines (NormalizeNewlines d), pathOfLine l ≠ []
  · rw [if_pos h]
    exact ⟨fun _ => h, fun _ => ⟨_, rfl⟩⟩
  · rw [if_neg h]
    constructor
    · rintro ⟨m, hm⟩
      exact absurd hm (by simp)
    · intro h'
      exact absurd h' h

/-- Witness of C4: the first record parses, the second has an empty path, and the whole
parse fails; with both paths present the parse succeeds. -/
theorem ParseVbkmFile_fail_fast_witness :
    ParseVbkmRecord "file: a\n".toList = some { path := "a".toList } ∧
    (∃ r ∈ SplitVbkmIntoRecords (NormalizeNewlines "file: a\nfile:  \n".toList),
      ParseVbkmRecord r = none) ∧
    ParseVbkmFile "file: a\nfile:  \n".toList = none ∧
    (∃ m, ParseVbkmFile "file: a\nfile: b\n".toList = some m) := by
  have hex : ∃ r ∈ SplitVbkmIntoRecords (NormalizeNewlines "file: a\nfile:  \n".toList),
      ParseVbkmRecord r = none :=
    ⟨"file:  \n".toList,
      by rw [NormalizeNewlines_eq_normalizeSpec, SplitVbkmIntoRecords_eq]; decide, by decide⟩
  refine ⟨by decide, hex, (ParseVbkmFile_fail_fast _).2 hex, ?_⟩
  apply (ParseVbkmFile_fail_fast "file: a\nfile: b\n".toList).1.mpr
  rw [NormalizeNewlines_eq_normalizeSpec]
  decide

/-- C6. For every input `s`, `NormalizeNewlines s` contains no '\r' and is `s` with every
"\r\n" pair replaced by one "\n" and every remaining lone '\r' replaced by "\n"; a CRLF
becomes one line break, not two, and a text without '\r' is returned unchanged. -/
theorem NormalizeNewlines_spec (s : List Char) :
    '\r' ∉ NormalizeNewlines s ∧
    NormalizeNewlines s = normalizeSpec s ∧
    ('\r' ∉ s → NormalizeNewlines s = s) ∧
    NormalizeNewlines ("a\r\nb".toList ++ s) = "a\nb".toList ++ NormalizeNewlines s := by
  refine ⟨?_, NormalizeNewlines_eq_normalizeSpec s, ?_, ?_⟩
  · rw [NormalizeNewlines_eq_normalizeSpec]; exact cr_not_mem_normalizeSpec s
  · intro h
    rw [NormalizeNewlines_eq_normalizeSpec]; exact normalizeSpec_of_no_cr s h
  · simp only [NormalizeNewlines_eq_normalizeSpec]
    show normalizeSpec ('a' :: '\r' :: '\n' :: 'b' :: s) = 'a' :: '\n' :: 'b' :: normalizeSpec s
    rw [normalizeSpec_cons_ne _ _ (by decide), normalizeSpec_cr_lf,
      normalizeSpec_cons_ne _ _ (by decide)]

/-- Witness of C6: mixed line endings, and a text without '\r'. -/
theorem NormalizeNewlines_spec_witness :
    NormalizeNewlines "a\r\nb\rc\n\r\r\n".toList = "a\nb\nc\n\n\n".toList ∧
    '\r' ∉ "file: x\ny".toList ∧ NormalizeNewlines "file: x\ny".toList = "file: x\ny".toList := by
  refine ⟨?_, by decide, (NormalizeNewlines_spec "file: x\ny".toList).2.2.1 (by decide)⟩
  rw [(NormalizeNewlines_spec "a\r\nb\rc\n\r\r\n".toList).2.1]
  decide

/-- C7. The parse result does not depend on the line-ending style: for every text `t`
that uses only "\n" line endings (it holds no '\r'), `ParseVbkmFile` gives on `t` with
each "\n" rewritten as "\r\n", and on `t` with each "\n" rewritten as a lone "\r", the
same outcome as on `t` itself. -/
theorem ParseVbkmFile_line_ending_independent (t : List Char) (ht : '\r' ∉ t) :
    ParseVbkmFile (toCRLF t) = ParseVbkmFile t ∧ ParseVbkmFile (toCR t) = ParseVbkmFile t := by
  constructor
  · apply ParseVbkmFile_congr
    rw [NormalizeNewlines_eq_normalizeSpec, NormalizeNewlines_eq_normalizeSpec,
      normalizeSpec_toCRLF t ht, normalizeSpec_of_no_cr t ht]
  · apply ParseVbkmFile_congr
    rw [NormalizeNewlines_eq_normalizeSpec, NormalizeNewlines_eq_normalizeSpec,
      normalizeSpec_toCR t ht, normalizeSpec_of_no_cr t ht]

/-- Witness of C7: a two-record manifest in the three line-ending styles. -/
theorem ParseVbkmFile_line_ending_independent_witness :
    toCRLF "x\nfile: a\nfile: b\n".toList = "x\r\nfile: a\r\nfile: b\r\n".toList ∧
    toCR "x\nfile: a\nfile: b\n".toList = "x\rfile: a\rfile: b\r".toList ∧
    ParseVbkmFile "x\nfile: a\nfile: b\n".toList
      = some { files := [{ path := "a".toList }, { path := "b".toList }] } ∧
    ParseVbkmFile (toCRLF "x\nfile: a\nfile: b\n".toList)
      = ParseVbkmFile "x\nfile: a\nfile: b\n".toList ∧
    ParseVbkmFile (toCR "x\nfile: a\nfile: b\n".toList)
      = ParseVbkmFile "x\nfile: a\nfile: b\n".toList :=
  ⟨by decide, by decide, by rw [ParseVbkmFile_eq_parseSpec]; decide,
    ParseVbkmFile_line_ending_independent "x\nfile: a\nfile: b\n".toList (by decide)⟩

/-- C8, as the code has it. For every text `t` and every prefix `p` made of complete
lines, each ended by '\n' and none beginning with "file:",
`SplitVbkmIntoRecords (p ++ t)` equals `SplitVbkmIntoRecords t`; and
`ParseVbkmFile (p ++ t)` equals `ParseVbkmFile t` when moreover no line of the
normalised `p` begins with "file:", in particular when `p` holds no '\r'. -/
theorem prefix_lines_discarded (P : List (List Char)) (t : List Char)
    (hP : ∀ l ∈ P, '\n' ∉ l ∧ isFileLine l = false) :
    SplitVbkmIntoRecords (joinLines P ++ t) = SplitVbkmIntoRecords t ∧
    (fileLines (NormalizeNewlines (joinLines P)) = [] →
      ParseVbkmFile (joinLines P ++ t) = ParseVbkmFile t) ∧
    ('\r' ∉ joinLines P → ParseVbkmFile (joinLines P ++ t) = ParseVbkmFile t) := by
  have hmain : fileLines (NormalizeNewlines (joinLines P)) = [] →
      ParseVbkmFile (joinLines P ++ t) = ParseVbkmFile t := by
    intro hf
    apply ParseVbkmFile_congr_fileLines
    rw [NormalizeNewlines_eq_normalizeSpec] at hf
    rw [NormalizeNewlines_eq_normalizeSpec, NormalizeNewlines_eq_normalizeSpec]
    exact fileLines_normalize_prefix _ t (joinLines_nil_or_ends_nl P) hf
  refine ⟨SplitVbkmIntoRecords_joinLines_append P t hP, hmain, fun hcr => hmain ?_⟩
  rw [NormalizeNewlines_eq_normalizeSpec, normalizeSpec_of_no_cr _ hcr]
  exact fileLines_joinLines P hP

/-- C8 as stated fails: the prefix "x\rfile: y\n" is one complete line ended by '\n'
that does not begin with "file:", yet normalisation turns its lone '\r' into a line
break, so `ParseVbkmFile` finds the extra record "file: y" in front of those of `t`. -/
theorem prefix_lines_discarded_counterexample :
    (∀ l ∈ ["x\rfile: y".toList], '\n' ∉ l ∧ isFileLine l = false) ∧
    joinLines ["x\rfile: y".toList] = "x\rfile: y\n".toList ∧
    SplitVbkmIntoRecords ("x\rfile: y\n".toList ++ "file: a\n".toList)
      = SplitVbkmIntoRecords "file: a\n".toList ∧
    ParseVbkmFile "file: a\n".toList = some { files := [{ path := "a".toList }] } ∧
    ParseVbkmFile ("x\rfile: y\n".toList ++ "file: a\n".toList)
      = some { files := [{ path := "y".toList }, { path := "a".toList }] } ∧
    ParseVbkmFile (joinLines ["x\rfile: y".toList] ++ "file: a\n".toList)
      ≠ ParseVbkmFile "file: a\n".toList := by
  refine ⟨by decide, by decide, ?_, ?_, ?_, ?_⟩
  · rw [SplitVbkmIntoRecords_eq, SplitVbkmIntoRecords_eq]; decide
  · rw [ParseVbkmFile_eq_parseSpec]; decide
  · rw [ParseVbkmFile_eq_parseSpec]; decide
  · rw [ParseVbkmFile_eq_parseSpec, ParseVbkmFile_eq_parseSpec]; decide

/-- Witness of C8 (amended): a comment line and an empty line before two records. -/
theorem prefix_lines_discarded_witness :
    joinLines ["# notes".toList, []] = "# notes\n\n".toList ∧
    SplitVbkmIntoRecords ("# notes\n\n".toList ++ "file: a\nfile: b".toList)
      = SplitVbkmIntoRecords "file: a\nfile: b".toList ∧
    ParseVbkmFile ("# notes\n\n".toList ++ "file: a\nfile: b".toList)
      = ParseVbkmFile "file: a\nfile: b".toList := by
  have h := prefix_lines_discarded ["# notes".toList, []] "file: a\nfile: b".toList (by decide)
  exact ⟨by decide, h.1, h.2.2 (by decide)⟩

/-- C9. `SplitVbkmIntoRecords` partitions at boundary lines only. The first lines of the
records are exactly the lines of `s` that begin with the case-sensitive characters
"file:" with nothing before them (" file: x" and "File: x" open no record); every record
begins with "file:" and has no other line beginning with "file:"; a record followed by
another one ends with the line break before the next boundary line; and the records,
concatenated, are the text from the first boundary line to the end of the input. -/
theorem SplitVbkmIntoRecords_partition (s : List Char) :
    (SplitVbkmIntoRecords s).map (fun r => (lines r).head?) = (fileLines s).map some ∧
    (∀ l ∈ lines s, l ∈ fileLines s ↔ "file:".toList <+: l) ∧
    (∀ r ∈ SplitVbkmIntoRecords s, "file:".toList <+: r) ∧
    (∀ r ∈ SplitVbkmIntoRecords s, ∀ l ∈ (lines r).tail, ¬ "file:".toList <+: l) ∧
    (∀ r ∈ (SplitVbkmIntoRecords s).dropLast, r.getLast? = some '\n') ∧
    (SplitVbkmIntoRecords s).flatten = fromFirstFileLine s ∧
    SplitVbkmIntoRecords " file: x".toList = [] ∧
    SplitVbkmIntoRecords "File: x".toList = [] ∧
    SplitVbkmIntoRecords "a\nfile: x\n file: y\nFILE: z\nfile:w".toList
      = ["file: x\n file: y\nFILE: z\n".toList, "file:w".toList] := by
  have hshape := recordsOfLines_mem_shape (lines s)
  have hnl := not_mem_of_mem_lines s
  refine ⟨?_, ?_, ?_, ?_, ?_, ?_, ?_, ?_, ?_⟩
  · rw [← SplitVbkmIntoRecords_firstLine, List.map_map]
    apply List.map_congr_left
    intro r _
    exact head?_lines r
  · intro l hl
    unfold fileLines
    rw [List.mem_filter, isFileLine_iff]
    exact ⟨fun h => h.2, fun h => ⟨hl, h⟩⟩
  · intro r hr
    rw [SplitVbkmIntoRecords_eq] at hr
    obtain ⟨l, A, t, rfl, hl, _, _, _⟩ := hshape r hr
    exact (((isFileLine_iff l).mp hl).trans (unlines_prefix_cons l A)).trans
      (List.prefix_append _ _)
  · intro r hr l' hl'
    rw [SplitVbkmIntoRecords_eq] at hr
    obtain ⟨l, A, t, rfl, _, hlL, hA, ht⟩ := hshape r hr
    have hlA : ∀ a ∈ l :: A, '\n' ∉ a := by
      intro a ha
      rcases List.mem_cons.mp ha with rfl | ha
      · exact hnl _ hlL
      · exact hnl _ (hA a ha).1
    rw [lines_record l t A hlA ht, List.tail_cons, List.mem_append] at hl'
    rw [← isFileLine_iff]
    rcases hl' with h | h
    · simp [(hA l' h).2]
    · by_cases ht0 : t = []
      · simp [ht0] at h
      · simp only [ht0, if_false, List.mem_singleton] at h
        rw [h, isFileLine_nil]
        simp
  · rw [SplitVbkmIntoRecords_eq]
    exact recordsOfLines_dropLast _
  · rw [SplitVbkmIntoRecords_eq]
    exact recordsOfLines_join _
  · rw [SplitVbkmIntoRecords_eq]; decide
  · rw [SplitVbkmIntoRecords_eq]; decide
  · rw [SplitVbkmIntoRecords_eq]; decide

/-- Witness of C9 on a manifest whose second record is the last one. -/
theorem SplitVbkmIntoRecords_partition_witness :
    SplitVbkmIntoRecords "junk\nfile: a\nmeta\nfile:b\nend".toList
      = ["file: a\nmeta\n".toList, "file:b\nend".toList] ∧
    (SplitVbkmIntoRecords "junk\nfile: a\nmeta\nfile:b\nend".toList).map (fun r => (lines r).head?)
      = [some "file: a".toList, some "file:b".toList] ∧
    (SplitVbkmIntoRecords "junk\nfile: a\nmeta\nfile:b\nend".toList).flatten
      = "file: a\nmeta\nfile:b\nend".toList := by
  have h := SplitVbkmIntoRecords_partition "junk\nfile: a\nmeta\nfile:b\nend".toList
  refine ⟨by rw [SplitVbkmIntoRecords_eq]; decide, ?_, ?_⟩
  · rw [h.1]; decide
  · rw [h.2.2.2.2.2.1]; decide

/-- C10 fails on the code: the emptiness test of `ParseVbkmRecord` looks at the trimmed
view, the record stores a NUL-terminated `char*`. For the record "file: " followed by a
NUL character the trimmed value is the one character NUL, not empty, so a record is
returned, and its path is the empty C string; `ParseVbkmFile` returns a manifest with
that record. A returned path is empty only in this way, when the trimmed value begins
with NUL. -/
theorem empty_path_on_leading_nul :
    sv.TrimSpace " \x00".toList = ['\x00'] ∧
    ParseVbkmRecord "file: \x00".toList = some { path := [] } ∧
    ParseVbkmFile "file: \x00".toList = some { files := [{ path := [] }] } ∧
    (∀ (r : List Char) (f : VbkmFile), ParseVbkmRecord r = some f → f.path = [] →
      (sv.TrimSpace (ParseLineFile (str.ParseUntil r '\n').1)).head? = some '\x00') := by
  refine ⟨by decide, by decide, by rw [ParseVbkmFile_eq_parseSpec]; decide, ?_⟩
  intro r f h hp
  unfold ParseVbkmRecord at h
  simp only [List.isEmpty_iff] at h
  split at h
  · simp at h
  · rename_i hne
    simp only [Option.some.injEq] at h
    rw [← h] at hp
    simp only [str.Dup] at hp
    cases hw : sv.TrimSpace (ParseLineFile (str.ParseUntil r '\n').1) with
    | nil => exact absurd hw hne
    | cons c cs =>
      rw [hw] at hp
      by_cases hc : c = '\x00'
      · rw [hc]; rfl
      · have : (c != '\x00') = true := by simpa using hc
        simp [List.takeWhile_cons, this] at hp

/-- C11. The function `IsEnginePdfMultiSupportedFile` returns `false` for every file name
when `sniff` is true, and when `sniff` is false it returns `true` if and only if the
file name ends with the extension ".vbkm" compared case-insensitively: "a.VBKM" is
accepted, "a.vbkm.pdf" and "a.pdf" are rejected. -/
theorem IsEnginePdfMultiSupportedFile_spec (fileName : List Char) :
    IsEnginePdfMultiSupportedFile fileName true = false ∧
    (IsEnginePdfMultiSupportedFile fileName false = true ↔ HasVbkmExtension fileName) ∧
    IsEnginePdfMultiSupportedFile "a.VBKM".toList false = true ∧
    IsEnginePdfMultiSupportedFile "a.vbkm.pdf".toList false = false ∧
    IsEnginePdfMultiSupportedFile "a.pdf".toList false = false := by
  refine ⟨rfl, ?_, by decide, by decide, by decide⟩
  unfold IsEnginePdfMultiSupportedFile
  simp only [Bool.false_eq_true, if_false]
  exact EndsWithI_vbkm_iff fileName

/-- Witness of C11: a mixed-case extension after a path, accepted without sniffing and
rejected with it; a name shorter than the extension is rejected. -/
theorem IsEnginePdfMultiSupportedFile_spec_witness :
    HasVbkmExtension "C:\\docs\\book.VbKm".toList ∧
    IsEnginePdfMultiSupportedFile "C:\\docs\\book.VbKm".toList false = true ∧
    IsEnginePdfMultiSupportedFile "C:\\docs\\book.VbKm".toList true = false ∧
    IsEnginePdfMultiSupportedFile "vbkm".toList false = false := by
  have hext : HasVbkmExtension "C:\\docs\\book.VbKm".toList :=
    ⟨"C:\\docs\\book".toList, 'V', 'b', 'K', 'm', by decide, by decide, by decide, by decide,
      by decide⟩
  exact ⟨hext, (IsEnginePdfMultiSupportedFile_spec _).2.1.mpr hext,
    (IsEnginePdfMultiSupportedFile_spec _).1, by decide⟩

/-- C12. If the content of the manifest file is empty or fails to parse (it has no
"file:" record, or a record with an empty path), then `Load` returns `false` and
`CreateFromFile` returns `none`, so no partially built composite document is handed to
the caller; `CreateFromFile` also returns `none` for an empty file name. -/
theorem Load_fails_on_bad_manifest (ReadFile : List Char → List Char)
    (self : EnginePdfMultiImpl) (fileName : List Char) (pwdUI : Option Unit) :
    ((ReadFile fileName = [] ∨ ParseVbkmFile (ReadFile fileName) = none) →
      (self.Load ReadFile fileName pwdUI).1 = false ∧
      EnginePdfMultiImpl.CreateFromFile ReadFile fileName pwdUI = none) ∧
    EnginePdfMultiImpl.CreateFromFile ReadFile [] pwdUI = none ∧
    (ParseVbkmFile (ReadFile fileName) = none ↔
      (fileLines (NormalizeNewlines (ReadFile fileName)) = [] ∨
        ∃ l ∈ fileLines (NormalizeNewlines (ReadFile fileName)),
          sv.TrimSpace (valueOf l) = [])) := by
  refine ⟨fun h => ⟨?_, ?_⟩, rfl, ParseVbkmFile_eq_none_iff _⟩
  · unfold EnginePdfMultiImpl.Load
    rcases h with h | h
    · simp [h]
    · by_cases he : (ReadFile fileName).isEmpty = true
      · simp only [he, if_true]
      · simp only [he]
        rfl
  · unfold EnginePdfMultiImpl.CreateFromFile
    by_cases hn : str.IsEmpty fileName = true
    · simp only [hn, if_true]
    · simp only [hn, Load_eq]
      rfl

/-- Witness of C12: a manifest whose second record has an empty path, an empty file,
and an empty file name. -/
theorem Load_fails_on_bad_manifest_witness :
    ParseVbkmFile "file: a.pdf\nfile: \n".toList = none ∧
    (EnginePdfMultiImpl.new.Load (fun _ => "file: a.pdf\nfile: \n".toList)
      "book.vbkm".toList none).1 = false ∧
    EnginePdfMultiImpl.CreateFromFile (fun _ => "file: a.pdf\nfile: \n".toList)
      "book.vbkm".toList none = none ∧
    EnginePdfMultiImpl.CreateFromFile (fun _ => []) "book.vbkm".toList none = none ∧
    EnginePdfMultiImpl.CreateFromFile (fun _ => "file: a.pdf\n".toList) [] none = none := by
  have hp : ParseVbkmFile "file: a.pdf\nfile: \n".toList = none := by
    rw [ParseVbkmFile_eq_parseSpec]; decide
  have h1 := (Load_fails_on_bad_manifest (fun _ => "file: a.pdf\nfile: \n".toList)
    EnginePdfMultiImpl.new "book.vbkm".toList none).1 (Or.inr hp)
  have h2 := (Load_fails_on_bad_manifest (fun _ => []) EnginePdfMultiImpl.new
    "book.vbkm".toList none).1 (Or.inl rfl)
  have h3 := (Load_fails_on_bad_manifest (fun _ => "file: a.pdf\n".toList)
    EnginePdfMultiImpl.new [] none).2.1
  exact ⟨hp, h1.1, h1.2, h2.2, h3⟩

/-- C13. The unsupported operations report "not supported" for every argument:
`SaveFileAs` and `SaveFileAsPdf` return `false` for every file name and either value of
`includeUserAnnots`, `Clone` returns `none` (the null pointer), and `SupportsAnnotation`
returns `false` for `forSaving` true and false. -/
theorem unsupported_operations (self : EnginePdfMultiImpl) (fileName : List Char)
    (flag : Bool) :
    self.SaveFileAs fileName flag = false ∧
    self.SaveFileAsPdf fileName flag = false ∧
    self.Clone = none ∧
    self.SupportsAnnotation true = false ∧
    self.SupportsAnnotation false = false :=
  ⟨rfl, rfl, rfl, rfl, rfl⟩

/-- C14, as the code has it. `PageCount` returns the stored member `pageCount`; the
constructor sets that member to -1 and `Load`, the only operation of this file that
runs on a constructed engine, leaves the engine unchanged, so `PageCount` is -1 on
every engine object this code constructs. -/
theorem PageCount_is_stored_member (ReadFile : List Char → List Char)
    (self : EnginePdfMultiImpl) (fileName : List Char) (pwdUI : Option Unit) :
    self.PageCount = self.pageCount ∧
    EnginePdfMultiImpl.new.PageCount = -1 ∧
    (self.Load ReadFile fileName pwdUI).2 = self ∧
    (EnginePdfMultiImpl.new.Load ReadFile fileName pwdUI).2.PageCount = -1 := by
  refine ⟨rfl, rfl, ?_, ?_⟩
  · rw [Load_eq]
  · rw [Load_eq]; rfl

/-- C14 as stated fails: on the engine object the constructor builds, `PageCount` is
-1, which is negative and is not the sum of any list of constituent page counts. -/
theorem PageCount_is_stored_member_counterexample :
    EnginePdfMultiImpl.new.PageCount = -1 ∧
    EnginePdfMultiImpl.new.PageCount < 0 ∧
    EnginePdfMultiImpl.new.PageCount ≠ totalPageCount [] ∧
    ¬ ∃ counts : List Nat, EnginePdfMultiImpl.new.PageCount = totalPageCount counts := by
  refine ⟨rfl, by decide, by decide, ?_⟩
  rintro ⟨counts, h⟩
  have h0 := totalPageCount_nonneg counts
  rw [← h] at h0
  exact absurd h0 (by decide)

/-- C15. The parse result depends only on the boundary lines: two texts with the same
sequence of lines beginning with "file:" (same lines, same order), whatever their other
lines are, get the same outcome from `ParseVbkmFile`, both `none` or both the same
ordered list of paths. The lines of a text are those of the manifest grammar, in which
a "\r\n" pair and a lone "\r" end a line as "\n" does: the lines of `normalizeSpec t`;
for texts without '\r' these are the '\n'-separated lines. -/
theorem ParseVbkmFile_depends_on_boundary_lines (t₁ t₂ : List Char) :
    (fileLines (normalizeSpec t₁) = fileLines (normalizeSpec t₂) →
      ParseVbkmFile t₁ = ParseVbkmFile t₂) ∧
    ('\r' ∉ t₁ → '\r' ∉ t₂ → fileLines t₁ = fileLines t₂ →
      ParseVbkmFile t₁ = ParseVbkmFile t₂) ∧
    ParseVbkmFile t₁
      = (if fileLines (normalizeSpec t₁) ≠ []
            ∧ ∀ l ∈ fileLines (normalizeSpec t₁), sv.TrimSpace (valueOf l) ≠ []
          then some { files := (fileLines (normalizeSpec t₁)).map
                        (fun l => { path := str.Dup (sv.TrimSpace (valueOf l)),
                                    engine := none }) }
          else none) := by
  have hmain : fileLines (normalizeSpec t₁) = fileLines (normalizeSpec t₂) →
      ParseVbkmFile t₁ = ParseVbkmFile t₂ := by
    intro h
    apply ParseVbkmFile_congr_fileLines
    rw [NormalizeNewlines_eq_normalizeSpec, NormalizeNewlines_eq_normalizeSpec]
    exact h
  refine ⟨hmain, fun h1 h2 h => hmain ?_, ?_⟩
  · rw [normalizeSpec_of_no_cr t₁ h1, normalizeSpec_of_no_cr t₂ h2]
    exact h
  · rw [ParseVbkmFile_eq_parseSpec]
    rfl

/-- Witness of C15: the same two boundary lines, once with a discarded first line, two
metadata lines and mixed line endings, once bare. -/
theorem ParseVbkmFile_depends_on_boundary_lines_witness :
    fileLines (normalizeSpec "junk\r\nfile: a\nmeta 1\nmeta: 2\rfile: b\n".toList)
      = fileLines (normalizeSpec "file: a\nfile: b".toList) ∧
    ParseVbkmFile "file: a\nfile: b".toList
      = some { files := [{ path := "a".toList }, { path := "b".toList }] } ∧
    ParseVbkmFile "junk\r\nfile: a\nmeta 1\nmeta: 2\rfile: b\n".toList
      = ParseVbkmFile "file: a\nfile: b".toList :=
  ⟨by decide, by rw [ParseVbkmFile_eq_parseSpec]; decide,
    (ParseVbkmFile_depends_on_boundary_lines _ _).1 (by decide)⟩

/-- C16. The function `Load` returns `false` for every file content, also for content
that `ParseVbkmFile` parses successfully, and so `CreateFromFile` and
`CreateEnginePdfMultiFromFile` return `none` for every file name: no input makes this
code produce a composite document. -/
theorem Load_always_false (ReadFile : List Char → List Char) (self : EnginePdfMultiImpl)
    (fileName : List Char) (pwdUI : Option Unit) :
    (self.Load ReadFile fileName pwdUI).1 = false ∧
    EnginePdfMultiImpl.CreateFromFile ReadFile fileName pwdUI = none ∧
    CreateEnginePdfMultiFromFile ReadFile fileName pwdUI = none ∧
    (ParseVbkmFile "file: a.pdf\nfile: b.pdf\n".toList
        = some { files := [{ path := "a.pdf".toList }, { path := "b.pdf".toList }] } ∧
      (self.Load (fun _ => "file: a.pdf\nfile: b.pdf\n".toList) fileName pwdUI).1 = false) := by
  refine ⟨?_, CreateFromFile_eq_none _ _ _, CreateFromFile_eq_none _ _ _, ?_, ?_⟩
  · rw [Load_eq]
  · rw [ParseVbkmFile_eq_parseSpec]; decide
  · rw [Load_eq]

/-- Witness of C16: a well-formed manifest under a well-formed name gives no engine. -/
theorem Load_always_false_witness :
    (EnginePdfMultiImpl.new.Load (fun _ => "file: a.pdf\n".toList) "book.vbkm".toList none).1
      = false ∧
    CreateEnginePdfMultiFromFile (fun _ => "file: a.pdf\n".toList) "book.vbkm".toList none
      = none :=
  ⟨(Load_always_false _ EnginePdfMultiImpl.new _ _).1,
    (Load_always_false _ EnginePdfMultiImpl.new _ _).2.2.1⟩

end EnginePdfMulti
